import Mathlib

/-!
# Coalesced hashing with a cellar: `HashMap` of `hash_map.h`

Shallow embedding of the class `HashMap<KeyType, ValueType, Hash>`.

Modelling conventions.

* The four parallel `std::vector`s are lists; every subscript `v[i]` of the
  source is a checked read `v[i]?`.  A read outside the vector, a modulus by
  zero and the wrap of `--last_empty_` below zero are undefined behaviour in
  the source and make the embedded operation return `none`.
* Loops that follow `next_` links carry a fuel argument; running out of fuel
  is `none` as well, so `some r` always means "the call returned `r`".
* `size_t` values are natural numbers.  `NULL_INDEX = (size_t)(-1)` is the
  link value `none`; every other link value `i` is `some i`.
* `MAX_LOAD_FACTOR` and `ADDRESS_FACTOR` are `float` constants, and the two
  expressions that use them, `occupied_count_ >= len_ * MAX_LOAD_FACTOR` and
  `static_cast<int>(len_ * ADDRESS_FACTOR)`, are evaluated in IEEE-754
  binary32 with round to nearest, ties to even: a `size_t` operand is
  converted to `float`, the product is rounded, the comparison is between
  `float`s and the cast truncates.  The values that occur are non-negative
  and far from the ends of the exponent range, so a `float` is represented by
  a natural number (an integer value as itself, a product in units of
  `2^-24`) and rounding means rounding to 24 significant bits (evaluation
  in `float` precision, `FLT_EVAL_METHOD == 0`).  The cast to `int` is
  defined while the product is below `2^31`, which holds for every reachable
  capacity up to 1879048185 (`cast_in_range`); at the next reachable
  capacity, 3758096377, the cast is undefined in the source and the embedding
  continues with the truncated value.
* The hasher is a function `hash : K → Nat`, passed to the operations that
  use `hasher_`; key equality `==` is decidable equality on `K`;
  `KeyType()` and `ValueType()` are `default`.
-/

set_option linter.unusedSectionVars false
set_option linter.unusedVariables false

namespace Coalesced

/-- The two failure conditions of the container: `at` on an absent key and a
dereference of a cursor at or past the end (both `std::out_of_range` in the
source, told apart by their message). -/
inductive Error where
  | KeyNotFound
  | OutOfRange
  deriving DecidableEq, Repr

/-- The private data members of `HashMap` (lines 282-291), without `hasher_`. -/
structure HashMap (K V : Type) where
  len_ : Nat
  address_len_ : Nat
  size_ : Nat
  occupied_count_ : Nat
  last_empty_ : Nat
  data_ : List (K × V)
  next_ : List (Option Nat)
  occupied_ : List Bool
  erased_ : List Bool
  deriving DecidableEq, Repr

/-- Outcome of the `while (occupied_[index])` loop of `insert`: either the
function returned from inside the loop, or the loop condition became false
at `index`. -/
inductive Walk (K V : Type) where
  | returned (m : HashMap K V)
  | exited (m : HashMap K V) (index : Nat)

section Defs

variable {K V : Type} [DecidableEq K] [Inhabited K] [Inhabited V]

/-- `std::fill(v.begin(), v.end(), x)`. -/
def vfill {α : Type} (l : List α) (x : α) : List α :=
  List.replicate l.length x

/-- `v.resize(n, x)`. -/
def vresize {α : Type} (l : List α) (n : Nat) (x : α) : List α :=
  l.take n ++ List.replicate (n - l.length) x

/-- `explicit HashMap(Hash hasher)`: the default member initialisers. -/
def HashMap.empty : HashMap K V :=
  { len_ := 0, address_len_ := 0, size_ := 0, occupied_count_ := 0, last_empty_ := 0,
    data_ := [], next_ := [], occupied_ := [], erased_ := [] }

/-- The loop of `get_last_empty`, as a function of the current value of
`last_empty_`: `while (occupied_[last_empty_]) --last_empty_;`.
Decrementing `0` wraps to `SIZE_MAX`, whose read is out of bounds. -/
def lastEmptyFrom (occupied : List Bool) : Nat → Option Nat
  | 0 => (occupied[0]?).bind fun o => if o then none else some 0
  | c + 1 => (occupied[c + 1]?).bind fun o =>
      if o then lastEmptyFrom occupied c else some (c + 1)

/-- `get_last_empty()`: returns the index and the table with the moved cursor. -/
def HashMap.get_last_empty (m : HashMap K V) : Option (Nat × HashMap K V) :=
  (lastEmptyFrom m.occupied_ m.last_empty_).map fun j => (j, { m with last_empty_ := j })

/-- The `while (occupied_[index])` loop of `insert` (lines 165-179). -/
def insertLoop (element : K × V) : Nat → HashMap K V → Nat → Option (Walk K V)
  | 0, _, _ => none
  | f + 1, m, index =>
    (m.occupied_[index]?).bind fun o =>
    if !o then some (Walk.exited m index) else
    (m.data_[index]?).bind fun d =>
    if d.1 = element.1 then
      (m.erased_[index]?).bind fun e =>
      if e then
        some (Walk.returned { m with
          data_ := m.data_.set index (d.1, element.2)
          size_ := m.size_ + 1
          erased_ := m.erased_.set index false })
      else some (Walk.returned m)
    else
      (m.next_[index]?).bind fun nx =>
      match nx with
      | none => (m.get_last_empty).bind fun r => insertLoop element f r.2 r.1
      | some j => insertLoop element f m j

/-- Lines 163-187 of `insert`: everything after the load-factor check.  A
modulus by `address_len_ == 0` and a write outside a vector are undefined and
give `none`.  The probe loop gets fuel `len_ + 2`: a chain has at most `len_`
slots, and the slot taken from the cursor costs one more iteration. -/
def insertBody (hash : K → Nat) (m : HashMap K V) (element : K × V) : Option (HashMap K V) :=
  if m.address_len_ = 0 then none else
  let start := hash element.1 % m.address_len_
  (insertLoop element (m.len_ + 2) m start).bind fun w =>
  match w with
  | Walk.returned m1 => some m1
  | Walk.exited m1 index =>
    if index < m1.data_.length ∧ index < m1.occupied_.length then
      let m2 : HashMap K V := { m1 with
        data_ := m1.data_.set index element
        occupied_ := m1.occupied_.set index true
        size_ := m1.size_ + 1
        occupied_count_ := m1.occupied_count_ + 1 }
      if start ≠ index then
        (m2.next_[start]?).bind fun ns =>
        if index < m2.next_.length then
          some { m2 with next_ := (m2.next_.set index ns).set start (some index) }
        else none
      else some m2
    else none

/-- The first loop of `resize` after `i` iterations: the live entries among
the slots `0 .. i-1`, in storage order. -/
def collectUpTo (m : HashMap K V) : Nat → Option (List (K × V))
  | 0 => some []
  | i + 1 =>
    (collectUpTo m i).bind fun elements =>
    (m.occupied_[i]?).bind fun o =>
    if o then
      (m.erased_[i]?).bind fun e =>
      if !e then (m.data_[i]?).bind fun d => some (elements ++ [d]) else some elements
    else some elements

/-- The number of low bits that are dropped when `p` is cut to 24 significant
bits: `0` below `2^24`, one more for each halving until then.  The first
argument bounds the number of halvings; `p` itself is always enough. -/
def dropBits : Nat → Nat → Nat
  | 0, _ => 0
  | f + 1, p => if p < 2 ^ 24 then 0 else dropBits f (p / 2) + 1

/-- Rounding to the 24 significant bits of binary32, to nearest, ties to
even: with `s` bits to drop, `p = q * 2^s + r`, and the result is `q * 2^s`
or `(q + 1) * 2^s`. -/
def round24 (p : Nat) : Nat :=
  let s := dropBits p p
  let q := p / 2 ^ s
  let r := p % 2 ^ s
  if 2 ^ s < 2 * r ∨ (2 * r = 2 ^ s ∧ q % 2 = 1) then (q + 1) * 2 ^ s else q * 2 ^ s

/-- The conversion of a `size_t` value to `float`. -/
def toFloat (n : Nat) : Nat := round24 n

/-- `constexpr static const float MAX_LOAD_FACTOR = 0.8;` (line 276): the
binary32 number nearest to `0.8` is `13421773 / 2^24`; the constant is kept
in units of `2^-24`. -/
def MAX_LOAD_FACTOR : Nat := 13421773

/-- `constexpr static const float ADDRESS_FACTOR = 0.86;` (line 277): the
binary32 number nearest to `0.86` is `14428406 / 2^24`; the constant is kept
in units of `2^-24`. -/
def ADDRESS_FACTOR : Nat := 14428406

/-- The `float` product `n * c` of a `size_t` value `n` and a constant `c`
given in units of `2^-24`; the result is in units of `2^-24` as well. -/
def mulFloat (n c : Nat) : Nat := round24 (toFloat n * c)

/-- The condition of line 160, `occupied_count_ >= len_ * MAX_LOAD_FACTOR`,
a comparison of two `float`s. -/
def loadReached (occupied_count len : Nat) : Bool :=
  decide (mulFloat len MAX_LOAD_FACTOR ≤ toFloat occupied_count * 2 ^ 24)

/-- The value of line 311, `std::max(1, static_cast<int>(len_ * ADDRESS_FACTOR))`:
the cast truncates the `float` product. -/
def addressLen (len : Nat) : Nat := max 1 (mulFloat len ADDRESS_FACTOR / 2 ^ 24)

/-- Lines 307-318 of `resize`: the table after the arrays are refilled and
resized and the counters reset, before the collected entries are reinserted. -/
def HashMap.regrown (m : HashMap K V) : HashMap K V :=
  let len := 2 * m.len_ + 7
  { len_ := len
    address_len_ := addressLen len
    size_ := 0
    occupied_count_ := 0
    last_empty_ := len - 1
    data_ := vresize m.data_ len default
    next_ := vresize (vfill m.next_ none) len none
    occupied_ := vresize (vfill m.occupied_ false) len false
    erased_ := vresize (vfill m.erased_ false) len false }

/-- `resize()`, with the function used for the calls `insert(element)` of its
last loop as a parameter. -/
def resizeWith (ins : HashMap K V → K × V → Option (HashMap K V)) (m : HashMap K V) :
    Option (HashMap K V) :=
  (collectUpTo m m.len_).bind fun elements => elements.foldlM ins m.regrown

/-- `insert(element)` with a bound on the depth of the mutual recursion
`insert → resize → insert`. -/
def insertDepth (hash : K → Nat) : Nat → HashMap K V → K × V → Option (HashMap K V)
  | 0, _, _ => none
  | d + 1, m, element =>
    (if loadReached m.occupied_count_ m.len_ then resizeWith (insertDepth hash d) m
     else some m).bind fun m1 => insertBody hash m1 element

/-- `void insert(const Element &element)`.  Depth 2 allows the call itself and
the calls made by one `resize`; a nested `resize` would exceed it. -/
def HashMap.insert (hash : K → Nat) (m : HashMap K V) (element : K × V) : Option (HashMap K V) :=
  insertDepth hash 2 m element

/-- `void resize()`, whose calls of `insert` may not grow the table again. -/
def HashMap.resize (hash : K → Nat) (m : HashMap K V) : Option (HashMap K V) :=
  resizeWith (insertDepth hash 1) m

/-- `end()`: the position of the end cursor. -/
def HashMap.end_ (m : HashMap K V) : Nat := m.len_

/-- The `while (index != NULL_INDEX)` loop of `erase` (lines 193-203). -/
def eraseLoop (key : K) (m : HashMap K V) : Nat → Option Nat → Option (HashMap K V)
  | 0, _ => none
  | _ + 1, none => some m
  | f + 1, some index =>
    (m.occupied_[index]?).bind fun o =>
    if !o then some m else
    (m.data_[index]?).bind fun d =>
    if d.1 = key then
      (m.erased_[index]?).bind fun e =>
      if !e then
        some { m with erased_ := m.erased_.set index true, size_ := m.size_ - 1 }
      else some m
    else (m.next_[index]?).bind fun nx => eraseLoop key m f nx

/-- `void erase(const KeyType &key)`. -/
def HashMap.erase (hash : K → Nat) (m : HashMap K V) (key : K) : Option (HashMap K V) :=
  if m.len_ = 0 then some m
  else if m.address_len_ = 0 then none
  else eraseLoop key m (m.len_ + 1) (some (hash key % m.address_len_))

/-- The `while (index != NULL_INDEX)` loop of `find` (lines 209-217); the
result is the position of the returned cursor. -/
def findLoop (key : K) (m : HashMap K V) : Nat → Option Nat → Option Nat
  | 0, _ => none
  | _ + 1, none => some m.end_
  | f + 1, some index =>
    (m.occupied_[index]?).bind fun o =>
    if !o then some m.end_ else
    (m.data_[index]?).bind fun d =>
    if d.1 = key then
      (m.erased_[index]?).bind fun e => if e then some m.end_ else some index
    else (m.next_[index]?).bind fun nx => findLoop key m f nx

/-- `find(key)`, as the position of the returned cursor.  The loop gets fuel
`len_ + 1`: a chain has at most `len_` slots. -/
def HashMap.find (hash : K → Nat) (m : HashMap K V) (key : K) : Option Nat :=
  if m.len_ = 0 then some m.end_
  else if m.address_len_ = 0 then none
  else findLoop key m (m.len_ + 1) (some (hash key % m.address_len_))

/-- `iterator::operator*` and `operator->` at position `index`. -/
def HashMap.deref (m : HashMap K V) (index : Nat) : Option (Except Error (K × V)) :=
  if index ≥ m.len_ then some (Except.error Error.OutOfRange)
  else (m.data_[index]?).map Except.ok

/-- `const ValueType &at(const KeyType &key) const`. -/
def HashMap.at_ (hash : K → Nat) (m : HashMap K V) (key : K) : Option (Except Error V) :=
  (m.find hash key).bind fun it =>
  if it = m.end_ then some (Except.error Error.KeyNotFound)
  else (m.deref it).map fun r => r.map Prod.snd

/-- `ValueType &operator[](const KeyType &key)`: the value referred to by the
result (or the exception of `it->second`) and the table afterwards. -/
def HashMap.operator_brackets (hash : K → Nat) (m : HashMap K V) (key : K) :
    Option (Except Error V × HashMap K V) :=
  (m.find hash key).bind fun it =>
  if it = m.end_ then
    (m.insert hash (key, default)).bind fun m1 =>
    (m1.find hash key).bind fun it1 =>
    (m1.deref it1).map fun r => (r.map Prod.snd, m1)
  else (m.deref it).map fun r => (r.map Prod.snd, m)

/-- `void clear()`. -/
def HashMap.clear (_m : HashMap K V) : HashMap K V :=
  { len_ := 0, address_len_ := 0, size_ := 0, occupied_count_ := 0, last_empty_ := 0,
    data_ := [], next_ := [], occupied_ := [], erased_ := [] }

/-- `size_t size() const`. -/
def HashMap.size (m : HashMap K V) : Nat := m.size_

/-- The loop `while (index < len_ && (!occupied_[index] || erased_[index])) ++index;`
shared by `begin()` and `operator++`. -/
def skipLoop (m : HashMap K V) : Nat → Nat → Option Nat
  | 0, _ => none
  | f + 1, index =>
    if index < m.len_ then
      (m.occupied_[index]?).bind fun o =>
      if !o then skipLoop m f (index + 1) else
      (m.erased_[index]?).bind fun e =>
      if e then skipLoop m f (index + 1) else some index
    else some index

/-- `begin()`: the position of the returned cursor. -/
def HashMap.begin (m : HashMap K V) : Option Nat := skipLoop m (m.len_ + 1) 0

/-- `iterator::operator++` applied to a cursor at position `index`. -/
def HashMap.advance (m : HashMap K V) (index : Nat) : Option Nat :=
  skipLoop m (m.len_ + 1) (index + 1)

/-- The positions visited by `for (it = begin(); it != end(); ++it)`. -/
def iterateFrom (m : HashMap K V) : Nat → Nat → Option (List Nat)
  | 0, _ => none
  | f + 1, index =>
    if index = m.end_ then some []
    else (m.advance index).bind fun j => (iterateFrom m f j).map fun l => index :: l

/-- The positions visited by a full traversal from `begin()` to `end()`. -/
def HashMap.traverse (m : HashMap K V) : Option (List Nat) :=
  (m.begin).bind fun b => iterateFrom m (m.len_ + 1) b

end Defs

/-! ## Specification-level views of a table -/

section Views

variable {K V : Type} [DecidableEq K] [Inhabited K] [Inhabited V]

/-- Slot `i` is occupied (`occupied_[i]`, `false` outside the array). -/
def HashMap.occ (m : HashMap K V) (i : Nat) : Bool := m.occupied_.getD i false

/-- Slot `i` is tombstoned (`erased_[i]`, `false` outside the array). -/
def HashMap.del (m : HashMap K V) (i : Nat) : Bool := m.erased_.getD i false

/-- Slot `i` is live: occupied and not tombstoned. -/
def HashMap.isLive (m : HashMap K V) (i : Nat) : Bool := m.occ i && !m.del i

/-- The pair stored in slot `i` (`data_[i]`). -/
def HashMap.entry (m : HashMap K V) (i : Nat) : K × V := m.data_.getD i default

/-- The key stored in slot `i`. -/
def HashMap.key (m : HashMap K V) (i : Nat) : K := (m.entry i).1

/-- The link of slot `i` (`next_[i]`), `none` for `NULL_INDEX`. -/
def HashMap.link (m : HashMap K V) (i : Nat) : Option Nat := m.next_.getD i none

/-- The indices of the live slots, in increasing order. -/
def HashMap.liveIdx (m : HashMap K V) : List Nat := (List.range m.len_).filter m.isLive

/-- Some live slot holds the pair `(k, v)`. -/
def HashMap.has (m : HashMap K V) (k : K) (v : V) : Prop :=
  ∃ i, m.isLive i = true ∧ m.entry i = (k, v)

/-- Slot `b` is on the chain that starts at slot `a`. -/
def HashMap.Chain (m : HashMap K V) (a b : Nat) : Prop :=
  Relation.ReflTransGen (fun i j => m.link i = some j) a b

/-- The representation invariant of the table. -/
structure WF (hash : K → Nat) (m : HashMap K V) : Prop where
  data_len : m.data_.length = m.len_
  next_len : m.next_.length = m.len_
  occupied_len : m.occupied_.length = m.len_
  erased_len : m.erased_.length = m.len_
  addr : m.address_len_ = if m.len_ = 0 then 0 else addressLen m.len_
  occ_count : m.occupied_count_ = (List.range m.len_).countP m.occ
  size_count : m.size_ = (List.range m.len_).countP m.isLive
  del_occ : ∀ i, m.del i = true → m.occ i = true
  cursor_lt : m.len_ ≠ 0 → m.last_empty_ < m.len_
  above_cursor : ∀ i, m.last_empty_ < i → i < m.len_ → m.occ i = true
  link_occ : ∀ i j, m.link i = some j → m.occ i = true ∧ m.occ j = true
  acyclic : ∃ rank : Nat → Nat, ∀ i j, m.link i = some j → rank j < rank i
  reach : ∀ i, m.occ i = true → m.Chain (hash (m.key i) % m.address_len_) i
  uniq : ∀ i j, m.occ i = true → m.occ j = true → m.key i = m.key j → i = j

/-- What `find` must return for key `k`: the live slot holding `k`, or the
end position when no live slot holds `k`. -/
def FindPost (m : HashMap K V) (k : K) (r : Nat) : Prop :=
  (r < m.len_ ∧ m.isLive r = true ∧ m.key r = k) ∨
    (r = m.len_ ∧ ∀ x, m.isLive x = true → m.key x ≠ k)

/-- The table after `erase` has tombstoned the live slot `r`. -/
def HashMap.tomb (m : HashMap K V) (r : Nat) : HashMap K V :=
  { m with erased_ := m.erased_.set r true, size_ := m.size_ - 1 }

/-- The table after `insert` has revived the tombstoned slot `r` with value `v`. -/
def HashMap.revive (m : HashMap K V) (r : Nat) (v : V) : HashMap K V :=
  { m with
    data_ := m.data_.set r (m.key r, v)
    size_ := m.size_ + 1
    erased_ := m.erased_.set r false }

/-- The table after `insert` has written `e` into the unoccupied home slot `t`. -/
def HashMap.place (m : HashMap K V) (t : Nat) (e : K × V) : HashMap K V :=
  { m with
    data_ := m.data_.set t e
    occupied_ := m.occupied_.set t true
    size_ := m.size_ + 1
    occupied_count_ := m.occupied_count_ + 1 }

/-- The table after `insert` has taken the free slot `t` from the cursor,
written `e` into it and linked it right after the home slot `s`. -/
def HashMap.splice (m : HashMap K V) (s t : Nat) (e : K × V) : HashMap K V :=
  { m with
    last_empty_ := t
    data_ := m.data_.set t e
    occupied_ := m.occupied_.set t true
    size_ := m.size_ + 1
    occupied_count_ := m.occupied_count_ + 1
    next_ := (m.next_.set t (m.link s)).set s (some t) }

/-- The effect of an `insert(e)` that does not grow the table, from `m` to `m'`. -/
structure InsertPost (m : HashMap K V) (e : K × V) (m' : HashMap K V) : Prop where
  len_eq : m'.len_ = m.len_
  addr_eq : m'.address_len_ = m.address_len_
  live_dup : (∃ v0, m.has e.1 v0) → m' = m
  has_new : (∀ v0, ¬ m.has e.1 v0) →
    ∀ k' v', m'.has k' v' ↔ ((k' = e.1 ∧ v' = e.2) ∨ (k' ≠ e.1 ∧ m.has k' v'))
  size_new : (∀ v0, ¬ m.has e.1 v0) → m'.size_ = m.size_ + 1
  occ_le : m'.occupied_count_ ≤ m.occupied_count_ + 1
  occ_ge : m.occupied_count_ ≤ m'.occupied_count_
  no_del : (∀ i, m.del i = false) → ∀ i, m'.del i = false

end Views

/-! ## Operation sequences, reachable tables and the abstract map -/

section Histories

variable {K V : Type} [DecidableEq K] [Inhabited K] [Inhabited V]

/-- The mutating public operations of the table. -/
inductive Op (K V : Type) where
  | insert (e : K × V)
  | erase (k : K)
  | index (k : K)
  | clear

/-- One public operation applied to a table (`index k` is `map[k]`). -/
def HashMap.step (hash : K → Nat) (m : HashMap K V) : Op K V → Option (HashMap K V)
  | Op.insert e => m.insert hash e
  | Op.erase k => m.erase hash k
  | Op.index k => (m.operator_brackets hash k).map Prod.snd
  | Op.clear => some m.clear

/-- A sequence of public operations applied to the empty table. -/
def HashMap.run (hash : K → Nat) (ops : List (Op K V)) : Option (HashMap K V) :=
  ops.foldlM (fun m op => m.step hash op) HashMap.empty

/-- The tables obtained from the empty table by finitely many calls of
`insert`, `erase`, `operator[]` and `clear`. -/
inductive Reachable (hash : K → Nat) : HashMap K V → Prop where
  | empty : Reachable hash HashMap.empty
  | step {m m' : HashMap K V} (op : Op K V) :
      Reachable hash m → m.step hash op = some m' → Reachable hash m'

/-- The specification's reading of one operation on an abstract map from keys
to values: `insert` adds a key only when it is absent, `erase` removes it,
`map[k]` adds the default value when `k` is absent, `clear` removes all. -/
def modelStep (f : K → Option V) : Op K V → K → Option V
  | Op.insert e => fun k => if k = e.1 then some ((f k).getD e.2) else f k
  | Op.erase k0 => fun k => if k = k0 then none else f k
  | Op.index k0 => fun k => if k = k0 then some ((f k).getD default) else f k
  | Op.clear => fun _ => none

/-- The abstract map after a sequence of operations on the empty map. -/
def model (ops : List (Op K V)) : K → Option V :=
  ops.foldl modelStep (fun _ => none)

/-- The operation is an insert of key `k`: `insert(k, v)` or `map[k]`. -/
def Op.inserts (k : K) : Op K V → Bool
  | Op.insert e => decide (e.1 = k)
  | Op.index k0 => decide (k0 = k)
  | _ => false

/-- The operation removes key `k`: `erase(k)` or `clear()`. -/
def Op.removes (k : K) : Op K V → Bool
  | Op.erase k0 => decide (k0 = k)
  | Op.clear => true
  | _ => false

/-- Given the operations from the most recent one backwards: key `k` has been
inserted and its most recent insert was not followed by `erase(k)` or
`clear()`. -/
def insertStands (k : K) : List (Op K V) → Bool
  | [] => false
  | op :: older =>
    if op.inserts k then true else if op.removes k then false else insertStands k older

end Histories

/-! ## Sample tables -/

section Samples

/-- A sample sequence of operations on a table with keys and values in `Nat`
and the identity as hasher: three keys with the same home slot, one erased. -/
def sampleOps : List (Op Nat Nat) :=
  [Op.insert (1, 10), Op.insert (7, 20), Op.insert (13, 30), Op.erase 7, Op.insert (2, 5)]

/-- The table produced by `sampleOps`: capacity 7, live keys 1, 2, 13 and a
tombstone for key 7 in the cellar slot 6. -/
def sample : HashMap Nat Nat :=
  { len_ := 7, address_len_ := 6, size_ := 3, occupied_count_ := 4, last_empty_ := 5,
    data_ := [(0, 0), (1, 10), (2, 5), (0, 0), (0, 0), (13, 30), (7, 20)],
    next_ := [none, some 5, none, none, none, some 6, none],
    occupied_ := [false, true, true, false, false, true, true],
    erased_ := [false, false, false, false, false, false, true] }

end Samples

/-! ## Tables inside a call of `insert`, the free-slot scan and chain walks -/

section CallStates

variable {K V : Type} [DecidableEq K] [Inhabited K] [Inhabited V]

/-- The table on which the body of the call `insert` on `m` itself runs: `m`
when the load check is false, the result of `resize` otherwise. -/
def FinalState (hash : K → Nat) (m t : HashMap K V) : Prop :=
  (loadReached m.occupied_count_ m.len_ = false ∧ t = m) ∨
  (loadReached m.occupied_count_ m.len_ = true ∧ m.resize hash = some t)

end CallStates

/-! ## Lists as vectors -/

section ListLemmas

variable {α : Type}

theorem getElem?_eq_some_getD (l : List α) (i : Nat) (d : α) (h : i < l.length) :
    l[i]? = some (l.getD i d) := by
  simp [List.getD, List.getElem?_eq_getElem h]

theorem getD_set (l : List α) (i j : Nat) (a d : α) :
    (l.set i a).getD j d = if i = j ∧ i < l.length then a else l.getD j d := by
  simp only [List.getD, List.getElem?_set]
  by_cases hij : i = j
  · subst hij
    by_cases hl : i < l.length
    · simp [hl]
    · have h1 : (l.set i a)[i]? = none :=
        List.getElem?_eq_none (by simp; omega)
      have h2 : l[i]? = none := List.getElem?_eq_none (by omega)
      simp [hl, h1, h2]
  · simp [hij]

theorem getD_false_lt (l : List Bool) (i : Nat) (h : l.getD i false = true) : i < l.length := by
  by_contra hn
  simp [List.getD, List.getElem?_eq_none (Nat.le_of_not_lt hn)] at h

theorem getD_none_lt (l : List (Option Nat)) (i j : Nat) (h : l.getD i none = some j) :
    i < l.length := by
  by_contra hn
  simp [List.getD, List.getElem?_eq_none (Nat.le_of_not_lt hn)] at h

/-- Changing a predicate at one point `t < n` changes its count on `range n`
by the change at `t`. -/
theorem countP_range_update (p q : Nat → Bool) (t : Nat) (h : ∀ i, i ≠ t → q i = p i) :
    ∀ n, t < n →
      (List.range n).countP q + (p t).toNat = (List.range n).countP p + (q t).toNat := by
  have hsame : ∀ n, n ≤ t → (List.range n).countP q = (List.range n).countP p := by
    intro n hn
    apply List.countP_congr
    intro i hi
    have : i < n := List.mem_range.mp hi
    rw [h i (by omega)]
  intro n
  induction n with
  | zero => intro h0; omega
  | succ n ih =>
    intro htn
    rw [List.range_succ, List.countP_append, List.countP_append]
    by_cases hlt : t < n
    · have := ih hlt
      have hq : q n = p n := h n (by omega)
      simp only [List.countP_cons, List.countP_nil, hq]
      omega
    · have hnt : n = t := by omega
      subst hnt
      have := hsame n (le_refl n)
      simp only [List.countP_cons, List.countP_nil, this]
      cases p n <;> cases q n <;> simp

end ListLemmas

/-! ## Rounding to binary32 -/

section Rounding

theorem dropBits_low : ∀ f p, dropBits f p = 0 ∨ 2 ^ dropBits f p * 2 ^ 23 ≤ p
  | 0, _ => Or.inl rfl
  | f + 1, p => by
    unfold dropBits
    by_cases h : p < 2 ^ 24
    · rw [if_pos h]; exact Or.inl rfl
    · rw [if_neg h]
      right
      rcases dropBits_low f (p / 2) with h0 | h1
      · rw [h0]
        norm_num at h ⊢
        omega
      · rw [pow_succ]
        have : p / 2 * 2 ≤ p := Nat.div_mul_le_self p 2
        calc 2 ^ dropBits f (p / 2) * 2 * 2 ^ 23
            = 2 ^ dropBits f (p / 2) * 2 ^ 23 * 2 := by ring
          _ ≤ p / 2 * 2 := Nat.mul_le_mul_right 2 h1
          _ ≤ p := this

/-- The two candidates of the rounding and the distance to them. -/
theorem round24_cases (p : Nat) :
    ∃ s q r, s = dropBits p p ∧ p = q * 2 ^ s + r ∧ r < 2 ^ s ∧
      ((round24 p = (q + 1) * 2 ^ s ∧ (2 ^ s < 2 * r ∨ (2 * r = 2 ^ s ∧ q % 2 = 1))) ∨
       (round24 p = q * 2 ^ s ∧ ¬ (2 ^ s < 2 * r ∨ (2 * r = 2 ^ s ∧ q % 2 = 1)))) := by
  refine ⟨dropBits p p, p / 2 ^ dropBits p p, p % 2 ^ dropBits p p, rfl, ?_, ?_, ?_⟩
  · rw [mul_comm]; exact (Nat.div_add_mod p _).symm
  · exact Nat.mod_lt _ (by positivity)
  · unfold round24
    by_cases h : 2 ^ dropBits p p < 2 * (p % 2 ^ dropBits p p) ∨
        (2 * (p % 2 ^ dropBits p p) = 2 ^ dropBits p p ∧ p / 2 ^ dropBits p p % 2 = 1)
    · left; exact ⟨if_pos h, h⟩
    · right; exact ⟨if_neg h, h⟩

/-- The relative error of the rounding is at most `2^-24`. -/
theorem round24_err (p : Nat) :
    2 ^ 24 * round24 p ≤ (2 ^ 24 + 1) * p ∧ (2 ^ 24 - 1) * p ≤ 2 ^ 24 * round24 p := by
  obtain ⟨s, q, r, hs, hp, hr, hc⟩ := round24_cases p
  have hlow := dropBits_low p p
  rw [← hs] at hlow
  generalize hT : 2 ^ s = T at *
  generalize hX : q * T = X at *
  have hq1 : (q + 1) * T = X + T := by rw [← hX]; ring
  rw [hq1] at hc
  rcases hlow with h0 | h1
  · subst h0
    have : T = 1 := by rw [← hT]; rfl
    subst this
    rcases hc with ⟨_, h | h⟩ | ⟨h, _⟩ <;> omega
  · rcases hc with ⟨h, h2 | h2⟩ | ⟨h, h2⟩ <;> omega

theorem round24_zero : round24 0 = 0 := by decide

/-- Rounding keeps every number below `2^24`, rounds a tie to the even
neighbour and otherwise to the nearest one. -/
theorem round24_examples :
    round24 16777215 = 16777215 ∧ round24 16777217 = 16777216 ∧
      round24 16777219 = 16777220 ∧ round24 16777221 = 16777220 ∧
      round24 33554434 = 33554432 ∧ round24 33554435 = 33554436 := by
  decide

/-- The two constants are `0.8` and `0.86` rounded to binary32. -/
theorem factor_values :
    round24 (8 * 2 ^ 50 / 10) = MAX_LOAD_FACTOR * 2 ^ 26 ∧
      round24 (86 * 2 ^ 50 / 100) = ADDRESS_FACTOR * 2 ^ 26 := by
  decide

/-- The load check holds whenever no slot is free. -/
theorem loadReached_of_le {occ len : Nat} (h : len ≤ occ) : loadReached occ len = true := by
  unfold loadReached mulFloat toFloat MAX_LOAD_FACTOR
  have a := round24_err occ
  have b := round24_err len
  have c := round24_err (round24 len * 13421773)
  generalize round24 (round24 len * 13421773) = P at *
  generalize round24 len = B at *
  generalize round24 occ = A at *
  norm_num at a b c ⊢
  omega

theorem lt_of_loadReached_false {occ len : Nat} (h : loadReached occ len = false) : occ < len := by
  by_contra hn
  rw [loadReached_of_le (Nat.le_of_not_lt hn)] at h
  exact absurd h (by decide)

/-- The load check fails while fewer than three quarters of the slots are occupied. -/
theorem loadReached_false {occ len : Nat} (h : 4 * occ < 3 * len) : loadReached occ len = false := by
  unfold loadReached mulFloat toFloat MAX_LOAD_FACTOR
  have a := round24_err occ
  have b := round24_err len
  have c := round24_err (round24 len * 13421773)
  generalize round24 (round24 len * 13421773) = P at *
  generalize round24 len = B at *
  generalize round24 occ = A at *
  norm_num at a b c ⊢
  omega

theorem addressLen_pos (len : Nat) : 1 ≤ addressLen len := by
  unfold addressLen; omega

theorem addressLen_lt {len : Nat} (h : 2 ≤ len) : addressLen len < len := by
  unfold addressLen mulFloat toFloat ADDRESS_FACTOR
  have b := round24_err len
  have c := round24_err (round24 len * 14428406)
  generalize round24 (round24 len * 14428406) = P at *
  generalize round24 len = B at *
  have : P / 2 ^ 24 < len := by
    rw [Nat.div_lt_iff_lt_mul (by positivity)]
    norm_num at b c ⊢
    omega
  omega


theorem addressLen_le {len : Nat} (h : 1 ≤ len) : addressLen len ≤ len := by
  rcases Nat.eq_or_lt_of_le h with h1 | h2
  · rw [← h1]; decide
  · exact (addressLen_lt h2).le

end Rounding

/-! ## Fuel: a call that returns keeps its result under any larger bound -/

section Fuel

variable {K V : Type} [DecidableEq K] [Inhabited K] [Inhabited V]

theorem findLoop_fuel (key : K) (m : HashMap K V) :
    ∀ f i r, findLoop key m f i = some r → findLoop key m (f + 1) i = some r := by
  intro f
  induction f with
  | zero => intro i r h; simp [findLoop] at h
  | succ f ih =>
    intro i r h
    cases i with
    | none => simpa [findLoop] using h
    | some index =>
      rw [findLoop] at h ⊢
      cases ho : m.occupied_[index]? with
      | none => rw [ho] at h; simp at h
      | some o =>
        rw [ho] at h
        simp only [Option.some_bind] at h ⊢
        split
        · rename_i hc; rw [if_pos hc] at h; exact h
        · rename_i hc
          rw [if_neg hc] at h
          cases hd : m.data_[index]? with
          | none => rw [hd] at h; simp at h
          | some d =>
            rw [hd] at h
            simp only [Option.some_bind] at h ⊢
            split
            · rename_i hk; rw [if_pos hk] at h; exact h
            · rename_i hk
              rw [if_neg hk] at h
              cases hn : m.next_[index]? with
              | none => rw [hn] at h; simp at h
              | some nx =>
                rw [hn] at h
                simp only [Option.some_bind] at h ⊢
                exact ih nx r h

theorem eraseLoop_fuel (key : K) (m : HashMap K V) :
    ∀ f i r, eraseLoop key m f i = some r → eraseLoop key m (f + 1) i = some r := by
  intro f
  induction f with
  | zero => intro i r h; simp [eraseLoop] at h
  | succ f ih =>
    intro i r h
    cases i with
    | none => simpa [eraseLoop] using h
    | some index =>
      rw [eraseLoop] at h ⊢
      cases ho : m.occupied_[index]? with
      | none => rw [ho] at h; simp at h
      | some o =>
        rw [ho] at h
        simp only [Option.some_bind] at h ⊢
        split
        · rename_i hc; rw [if_pos hc] at h; exact h
        · rename_i hc
          rw [if_neg hc] at h
          cases hd : m.data_[index]? with
          | none => rw [hd] at h; simp at h
          | some d =>
            rw [hd] at h
            simp only [Option.some_bind] at h ⊢
            split
            · rename_i hk; rw [if_pos hk] at h; exact h
            · rename_i hk
              rw [if_neg hk] at h
              cases hn : m.next_[index]? with
              | none => rw [hn] at h; simp at h
              | some nx =>
                rw [hn] at h
                simp only [Option.some_bind] at h ⊢
                exact ih nx r h

theorem insertLoop_fuel (e : K × V) :
    ∀ f (m : HashMap K V) i r, insertLoop e f m i = some r →
      insertLoop e (f + 1) m i = some r := by
  intro f
  induction f with
  | zero => intro m i r h; simp [insertLoop] at h
  | succ f ih =>
    intro m index r h
    rw [insertLoop] at h ⊢
    cases ho : m.occupied_[index]? with
    | none => rw [ho] at h; simp at h
    | some o =>
      rw [ho] at h
      simp only [Option.some_bind] at h ⊢
      split
      · rename_i hc; rw [if_pos hc] at h; exact h
      · rename_i hc
        rw [if_neg hc] at h
        cases hd : m.data_[index]? with
        | none => rw [hd] at h; simp at h
        | some d =>
          rw [hd] at h
          simp only [Option.some_bind] at h ⊢
          split
          · rename_i hk; rw [if_pos hk] at h; exact h
          · rename_i hk
            rw [if_neg hk] at h
            cases hn : m.next_[index]? with
            | none => rw [hn] at h; simp at h
            | some nx =>
              rw [hn] at h
              simp only [Option.some_bind] at h ⊢
              cases nx with
              | some j => exact ih m j r h
              | none =>
                cases hg : m.get_last_empty with
                | none => rw [hg] at h; simp at h
                | some p =>
                  rw [hg] at h
                  simp only [Option.some_bind] at h ⊢
                  exact ih p.2 p.1 r h

theorem skipLoop_fuel (m : HashMap K V) :
    ∀ f i r, skipLoop m f i = some r → skipLoop m (f + 1) i = some r := by
  intro f
  induction f with
  | zero => intro i r h; simp [skipLoop] at h
  | succ f ih =>
    intro index r h
    rw [skipLoop] at h ⊢
    split
    · rename_i hl
      rw [if_pos hl] at h
      cases ho : m.occupied_[index]? with
      | none => rw [ho] at h; simp at h
      | some o =>
        rw [ho] at h
        simp only [Option.some_bind] at h ⊢
        split
        · rename_i hc; rw [if_pos hc] at h; exact ih _ r h
        · rename_i hc
          rw [if_neg hc] at h
          cases hd : m.erased_[index]? with
          | none => rw [hd] at h; simp at h
          | some d =>
            rw [hd] at h
            simp only [Option.some_bind] at h ⊢
            split
            · rename_i hk; rw [if_pos hk] at h; exact ih _ r h
            · rename_i hk; rw [if_neg hk] at h; exact h
    · rename_i hl; rw [if_neg hl] at h; exact h

theorem foldlM_mono {α β : Type} (f g : β → α → Option β)
    (hfg : ∀ b a r, f b a = some r → g b a = some r) :
    ∀ (l : List α) (b r : β), l.foldlM f b = some r → l.foldlM g b = some r := by
  intro l
  induction l with
  | nil => intro b r h; exact h
  | cons a l ih =>
    intro b r h
    rw [List.foldlM_cons] at h ⊢
    cases hf : f b a with
    | none => rw [hf] at h; cases h
    | some b1 =>
      rw [hf] at h
      rw [hfg b a b1 hf]
      exact ih b1 r h

/-- A call of `insert` that returns within recursion depth `d` returns the
same table within any larger depth. -/
theorem insertDepth_fuel (hash : K → Nat) :
    ∀ d (m : HashMap K V) e r, insertDepth hash d m e = some r →
      insertDepth hash (d + 1) m e = some r := by
  intro d
  induction d with
  | zero => intro m e r h; simp [insertDepth] at h
  | succ d ih =>
    intro m e r h
    rw [insertDepth] at h ⊢
    split
    · rename_i hc
      rw [if_pos hc] at h
      cases hr : resizeWith (insertDepth hash d) m with
      | none => rw [hr] at h; cases h
      | some m1 =>
        rw [hr] at h
        have : resizeWith (insertDepth hash (d + 1)) m = some m1 := by
          unfold resizeWith at hr ⊢
          cases hcol : collectUpTo m m.len_ with
          | none => simp [hcol] at hr
          | some els =>
            simp only [hcol, Option.some_bind] at hr ⊢
            exact foldlM_mono _ _ ih els _ _ hr
        rw [this]
        exact h
    · rename_i hc
      rw [if_neg hc] at h
      exact h

theorem fuel_le {α β : Type} (F : Nat → α → Option β)
    (hstep : ∀ f a r, F f a = some r → F (f + 1) a = some r) :
    ∀ f f' a r, f ≤ f' → F f a = some r → F f' a = some r := by
  intro f f' a r hle h
  induction hle with
  | refl => exact h
  | step _ ih => exact hstep _ a r ih

/-- The result of `insert` does not depend on the depth bound 2 of the
embedding: every larger bound gives the same table. -/
theorem insert_fuel (hash : K → Nat) (m : HashMap K V) (e : K × V) (r : HashMap K V)
    (h : m.insert hash e = some r) : ∀ d, 2 ≤ d → insertDepth hash d m e = some r := by
  intro d hd
  exact fuel_le (fun d (p : HashMap K V × (K × V)) => insertDepth hash d p.1 p.2)
    (fun f a r h => insertDepth_fuel hash f a.1 a.2 r h) 2 d (m, e) r hd h

/-- The result of `find` does not depend on the fuel `len_ + 1` of the
embedding: every larger bound gives the same position. -/
theorem find_fuel (hash : K → Nat) (m : HashMap K V) (key : K) (r : Nat)
    (hl : m.len_ ≠ 0) (h : m.find hash key = some r) :
    ∀ f, m.len_ + 1 ≤ f → findLoop key m f (some (hash key % m.address_len_)) = some r := by
  intro f hf
  unfold HashMap.find at h
  rw [if_neg hl] at h
  by_cases ha : m.address_len_ = 0
  · rw [if_pos ha] at h
    cases h
  · rw [if_neg ha] at h
    exact fuel_le (fun f i => findLoop key m f i) (findLoop_fuel key m) _ f _ r hf h

end Fuel

/-! ## Consequences of the invariant -/

section Invariant

variable {K V : Type} [DecidableEq K] [Inhabited K] [Inhabited V]
variable {hash : K → Nat} {m : HashMap K V}

theorem WF.occ_lt (h : WF hash m) {i : Nat} (hi : m.occ i = true) : i < m.len_ := by
  have := getD_false_lt m.occupied_ i hi
  rw [h.occupied_len] at this
  exact this

theorem WF.live_lt (h : WF hash m) {i : Nat} (hi : m.isLive i = true) : i < m.len_ := by
  simp only [HashMap.isLive, Bool.and_eq_true] at hi
  exact h.occ_lt hi.1

theorem WF.read_occupied (h : WF hash m) {i : Nat} (hi : i < m.len_) :
    m.occupied_[i]? = some (m.occ i) :=
  getElem?_eq_some_getD _ _ _ (by rw [h.occupied_len]; exact hi)

theorem WF.read_erased (h : WF hash m) {i : Nat} (hi : i < m.len_) :
    m.erased_[i]? = some (m.del i) :=
  getElem?_eq_some_getD _ _ _ (by rw [h.erased_len]; exact hi)

theorem WF.read_data (h : WF hash m) {i : Nat} (hi : i < m.len_) :
    m.data_[i]? = some (m.entry i) :=
  getElem?_eq_some_getD _ _ _ (by rw [h.data_len]; exact hi)

theorem WF.read_next (h : WF hash m) {i : Nat} (hi : i < m.len_) :
    m.next_[i]? = some (m.link i) :=
  getElem?_eq_some_getD _ _ _ (by rw [h.next_len]; exact hi)

theorem WF.addr_pos (h : WF hash m) (hl : m.len_ ≠ 0) : 0 < m.address_len_ := by
  rw [h.addr, if_neg hl]
  exact addressLen_pos _

theorem WF.addr_lt (h : WF hash m) (hl : m.len_ ≠ 0) : m.address_len_ < m.len_ ∨ m.len_ = 1 := by
  rw [h.addr, if_neg hl]
  rcases Nat.lt_or_ge m.len_ 2 with h1 | h2
  · right; omega
  · left; exact addressLen_lt h2

theorem WF.addr_le (h : WF hash m) : m.address_len_ ≤ m.len_ := by
  rw [h.addr]
  split
  · omega
  · exact addressLen_le (by omega)

theorem WF.home_lt (h : WF hash m) (hl : m.len_ ≠ 0) (k : K) :
    hash k % m.address_len_ < m.len_ :=
  lt_of_lt_of_le (Nat.mod_lt _ (h.addr_pos hl)) h.addr_le

/-- Acyclic links admit a rank that is smaller than the capacity. -/
theorem WF.rank_bounded (h : WF hash m) :
    ∃ rank : Nat → Nat, (∀ i j, m.link i = some j → rank j < rank i) ∧
      ∀ i, i < m.len_ → rank i < m.len_ := by
  obtain ⟨r0, hr0⟩ := h.acyclic
  refine ⟨fun i => ((Finset.range m.len_).filter (fun j => r0 j < r0 i)).card, ?_, ?_⟩
  · intro i j hij
    have hj : j < m.len_ := h.occ_lt (h.link_occ i j hij).2
    have hlt := hr0 i j hij
    apply Finset.card_lt_card
    rw [Finset.ssubset_iff_of_subset]
    · refine ⟨j, ?_, ?_⟩
      · simp [hj, hlt]
      · simp
    · intro x hx
      simp only [Finset.mem_filter, Finset.mem_range] at hx ⊢
      exact ⟨hx.1, lt_trans hx.2 hlt⟩
  · intro i hi
    have : ((Finset.range m.len_).filter (fun j => r0 j < r0 i)).card
        < (Finset.range m.len_).card := by
      apply Finset.card_lt_card
      rw [Finset.ssubset_iff_of_subset (Finset.filter_subset _ _)]
      exact ⟨i, by simp [hi], by simp⟩
    simpa using this

theorem chain_of_no_link {a x : Nat} (hl : m.link a = none) (hc : m.Chain a x) : x = a := by
  rcases Relation.ReflTransGen.cases_head hc with h | ⟨c, h, _⟩
  · exact h.symm
  · rw [hl] at h; cases h

theorem chain_step {a b x : Nat} (hl : m.link a = some b) (hc : m.Chain a x) (hne : x ≠ a) :
    m.Chain b x := by
  rcases Relation.ReflTransGen.cases_head hc with h | ⟨c, h, hcx⟩
  · exact absurd h.symm hne
  · rw [hl] at h
    cases h
    exact hcx

theorem WF.link_none_of_not_occ (h : WF hash m) {a : Nat} (ha : m.occ a = false) :
    m.link a = none := by
  cases hl : m.link a with
  | none => rfl
  | some j =>
    have := (h.link_occ a j hl).1
    rw [ha] at this
    cases this

theorem findLoop_spec (h : WF hash m) (k : K) (rank : Nat → Nat)
    (hr : ∀ i j, m.link i = some j → rank j < rank i) :
    ∀ f a, a < m.len_ → rank a + 2 ≤ f →
      (∀ x, m.occ x = true → m.key x = k → m.Chain a x) →
      ∃ r, findLoop k m f (some a) = some r ∧ FindPost m k r := by
  intro f
  induction f with
  | zero => intro a _ hf; omega
  | succ f ih =>
    intro a ha hf hch
    simp only [findLoop, h.read_occupied ha, h.read_data ha, h.read_erased ha,
      h.read_next ha, Option.some_bind]
    cases hoa : m.occ a with
    | false =>
      refine ⟨m.len_, by simp [HashMap.end_], Or.inr ⟨rfl, ?_⟩⟩
      intro x hx hk
      simp only [HashMap.isLive, Bool.and_eq_true] at hx
      have := chain_of_no_link (h.link_none_of_not_occ hoa) (hch x hx.1 hk)
      rw [this, hoa] at hx
      exact Bool.noConfusion hx.1
    | true =>
      by_cases hk : (m.entry a).1 = k
      · cases hda : m.del a with
        | true =>
          refine ⟨m.len_, by simp [HashMap.end_, hk], Or.inr ⟨rfl, ?_⟩⟩
          intro x hx hkx
          simp only [HashMap.isLive, Bool.and_eq_true] at hx
          have : x = a := h.uniq x a hx.1 hoa (by rw [hkx]; exact hk.symm)
          rw [this, hda] at hx
          simp at hx
        | false =>
          refine ⟨a, by simp [hk], Or.inl ⟨ha, ?_, hk⟩⟩
          simp [HashMap.isLive, hoa, hda]
      · cases hla : m.link a with
        | none =>
          refine ⟨m.len_, ?_, Or.inr ⟨rfl, ?_⟩⟩
          · have : f = (f - 1) + 1 := by omega
            rw [this]
            simp [hk, findLoop, HashMap.end_]
          · intro x hx hkx
            simp only [HashMap.isLive, Bool.and_eq_true] at hx
            have := chain_of_no_link hla (hch x hx.1 hkx)
            rw [this] at hkx
            exact hk hkx
        | some b =>
          have hb : b < m.len_ := h.occ_lt (h.link_occ a b hla).2
          have hrb := hr a b hla
          obtain ⟨r, hr1, hr2⟩ := ih b hb (by omega) (by
            intro x hx hkx
            apply chain_step hla (hch x hx hkx)
            intro hxa
            rw [hxa] at hkx
            exact hk hkx)
          exact ⟨r, by simp [hk, hr1], hr2⟩

end Invariant

/-! ## `find`, `at` and `erase` on a well-formed table -/

section FindErase

variable {K V : Type} [DecidableEq K] [Inhabited K] [Inhabited V]
variable {hash : K → Nat} {m : HashMap K V}

theorem WF.live_unique (h : WF hash m) {i j : Nat} (hi : m.isLive i = true)
    (hj : m.isLive j = true) (hk : m.key i = m.key j) : i = j := by
  simp only [HashMap.isLive, Bool.and_eq_true] at hi hj
  exact h.uniq i j hi.1 hj.1 hk

theorem FindPost.unique (h : WF hash m) {k : K} {r r' : Nat} (h1 : FindPost m k r)
    (h2 : FindPost m k r') : r = r' := by
  rcases h1 with ⟨_, hl, hk⟩ | ⟨he, hn⟩ <;> rcases h2 with ⟨_, hl', hk'⟩ | ⟨he', hn'⟩
  · exact h.live_unique hl hl' (by rw [hk, hk'])
  · exact absurd hk (hn' r hl)
  · exact absurd hk' (hn r' hl')
  · rw [he, he']

theorem find_spec (h : WF hash m) (k : K) : ∃ r, m.find hash k = some r ∧ FindPost m k r := by
  unfold HashMap.find
  by_cases hl : m.len_ = 0
  · refine ⟨m.len_, by simp [hl, HashMap.end_], Or.inr ⟨rfl, ?_⟩⟩
    intro x hx
    have := h.live_lt hx
    omega
  · have hap := h.addr_pos hl
    rw [if_neg hl, if_neg (by omega)]
    obtain ⟨rank, hr, hb⟩ := h.rank_bounded
    have hhome := h.home_lt hl k
    apply findLoop_spec h k rank hr _ _ hhome
    · have := hb _ hhome
      omega
    · intro x hx hkx
      have := h.reach x hx
      rw [hkx] at this
      exact this

theorem find_of_live (h : WF hash m) {i : Nat} (hi : m.isLive i = true) :
    m.find hash (m.key i) = some i := by
  obtain ⟨r, hr, hp⟩ := find_spec h (m.key i)
  rw [hr]
  rcases hp with ⟨_, hl, hk⟩ | ⟨_, hn⟩
  · rw [h.live_unique hl hi hk]
  · exact absurd rfl (hn i hi)

theorem find_of_absent (h : WF hash m) {k : K} (hn : ∀ x, m.isLive x = true → m.key x ≠ k) :
    m.find hash k = some m.end_ := by
  obtain ⟨r, hr, hp⟩ := find_spec h k
  rw [hr]
  rcases hp with ⟨_, hl, hk⟩ | ⟨he, _⟩
  · exact absurd hk (hn r hl)
  · rw [he]; rfl

theorem has_key {k : K} {v : V} {i : Nat} (he : m.entry i = (k, v)) : m.key i = k := by
  simp [HashMap.key, he]

theorem WF.has_unique (h : WF hash m) {k : K} {v v' : V} (h1 : m.has k v) (h2 : m.has k v') :
    v = v' := by
  obtain ⟨i, hi, hei⟩ := h1
  obtain ⟨j, hj, hej⟩ := h2
  have : i = j := h.live_unique hi hj (by rw [has_key hei, has_key hej])
  subst this
  rw [hei] at hej
  exact (Prod.mk.inj hej).2

theorem find_of_has (h : WF hash m) {k : K} {v : V} (hh : m.has k v) :
    ∃ i, m.find hash k = some i ∧ i < m.len_ ∧ m.isLive i = true ∧ m.entry i = (k, v) := by
  obtain ⟨i, hi, hei⟩ := hh
  refine ⟨i, ?_, h.live_lt hi, hi, hei⟩
  have := find_of_live h hi
  rwa [has_key hei] at this

theorem find_of_not_has (h : WF hash m) {k : K} (hn : ∀ v, ¬ m.has k v) :
    m.find hash k = some m.end_ := by
  apply find_of_absent h
  intro x hx hk
  apply hn (m.entry x).2
  refine ⟨x, hx, ?_⟩
  rw [← hk]
  rfl

theorem deref_lt (h : WF hash m) {i : Nat} (hi : i < m.len_) :
    m.deref i = some (Except.ok (m.entry i)) := by
  unfold HashMap.deref
  rw [if_neg (by omega), h.read_data hi]
  rfl

theorem at_of_has (h : WF hash m) {k : K} {v : V} (hh : m.has k v) :
    m.at_ hash k = some (Except.ok v) := by
  obtain ⟨i, hf, hi, _, he⟩ := find_of_has h hh
  unfold HashMap.at_
  rw [hf, Option.some_bind, if_neg (by unfold HashMap.end_; omega), deref_lt h hi, he]
  rfl

theorem at_of_not_has (h : WF hash m) {k : K} (hn : ∀ v, ¬ m.has k v) :
    m.at_ hash k = some (Except.error Error.KeyNotFound) := by
  unfold HashMap.at_
  rw [find_of_not_has h hn, Option.some_bind, if_pos rfl]

theorem has_or_not (m : HashMap K V) (k : K) : (∃ v, m.has k v) ∨ ∀ v, ¬ m.has k v := by
  by_cases h : ∃ v, m.has k v
  · exact Or.inl h
  · exact Or.inr (fun v hv => h ⟨v, hv⟩)

/-- Two well-formed tables that hold the same pairs for `k` answer `at(k)` alike. -/
theorem at_congr {m' : HashMap K V} (h : WF hash m) (h' : WF hash m') {k : K}
    (hh : ∀ v, m'.has k v ↔ m.has k v) : m'.at_ hash k = m.at_ hash k := by
  rcases has_or_not m k with ⟨v, hv⟩ | hn
  · rw [at_of_has h hv, at_of_has h' ((hh v).2 hv)]
  · rw [at_of_not_has h hn, at_of_not_has h' (fun v hv => hn v ((hh v).1 hv))]

theorem find_end_iff_not_has (h : WF hash m) (k : K) :
    m.find hash k = some m.end_ ↔ ∀ v, ¬ m.has k v := by
  constructor
  · intro hf v hv
    obtain ⟨i, hfi, hi, _, _⟩ := find_of_has h hv
    rw [hfi] at hf
    have := Option.some.inj hf
    unfold HashMap.end_ at this
    omega
  · exact find_of_not_has h

theorem eraseLoop_spec (h : WF hash m) (k : K) (rank : Nat → Nat)
    (hr : ∀ i j, m.link i = some j → rank j < rank i) :
    ∀ f a, a < m.len_ → rank a + 2 ≤ f →
      (∀ x, m.occ x = true → m.key x = k → m.Chain a x) →
      ∃ m', eraseLoop k m f (some a) = some m' ∧
        ((∃ r, m.isLive r = true ∧ m.key r = k ∧ m' = m.tomb r) ∨
          ((∀ x, m.isLive x = true → m.key x ≠ k) ∧ m' = m)) := by
  intro f
  induction f with
  | zero => intro a _ hf; omega
  | succ f ih =>
    intro a ha hf hch
    simp only [eraseLoop, h.read_occupied ha, h.read_data ha, h.read_erased ha,
      h.read_next ha, Option.some_bind]
    cases hoa : m.occ a with
    | false =>
      refine ⟨m, by simp, Or.inr ⟨?_, rfl⟩⟩
      intro x hx hk
      simp only [HashMap.isLive, Bool.and_eq_true] at hx
      have := chain_of_no_link (h.link_none_of_not_occ hoa) (hch x hx.1 hk)
      rw [this, hoa] at hx
      exact Bool.noConfusion hx.1
    | true =>
      by_cases hk : (m.entry a).1 = k
      · cases hda : m.del a with
        | true =>
          refine ⟨m, by simp [hk], Or.inr ⟨?_, rfl⟩⟩
          intro x hx hkx
          simp only [HashMap.isLive, Bool.and_eq_true] at hx
          have : x = a := h.uniq x a hx.1 hoa (by rw [hkx]; exact hk.symm)
          rw [this, hda] at hx
          simp at hx
        | false =>
          refine ⟨m.tomb a, by simp [hk, HashMap.tomb], Or.inl ⟨a, ?_, hk, rfl⟩⟩
          simp [HashMap.isLive, hoa, hda]
      · cases hla : m.link a with
        | none =>
          refine ⟨m, ?_, Or.inr ⟨?_, rfl⟩⟩
          · have : f = (f - 1) + 1 := by omega
            rw [this]
            simp [hk, eraseLoop]
          · intro x hx hkx
            simp only [HashMap.isLive, Bool.and_eq_true] at hx
            have := chain_of_no_link hla (hch x hx.1 hkx)
            rw [this] at hkx
            exact hk hkx
        | some b =>
          have hb : b < m.len_ := h.occ_lt (h.link_occ a b hla).2
          have hrb := hr a b hla
          obtain ⟨r, hr1, hr2⟩ := ih b hb (by omega) (by
            intro x hx hkx
            apply chain_step hla (hch x hx hkx)
            intro hxa
            rw [hxa] at hkx
            exact hk hkx)
          exact ⟨r, by simp [hk, hr1], hr2⟩

theorem erase_spec (h : WF hash m) (k : K) :
    ∃ m', m.erase hash k = some m' ∧
      ((∃ r, m.isLive r = true ∧ m.key r = k ∧ m' = m.tomb r) ∨
        ((∀ x, m.isLive x = true → m.key x ≠ k) ∧ m' = m)) := by
  unfold HashMap.erase
  by_cases hl : m.len_ = 0
  · refine ⟨m, by simp [hl], Or.inr ⟨?_, rfl⟩⟩
    intro x hx
    have := h.live_lt hx
    omega
  · have hap := h.addr_pos hl
    rw [if_neg hl, if_neg (by omega)]
    obtain ⟨rank, hr, hb⟩ := h.rank_bounded
    have hhome := h.home_lt hl k
    apply eraseLoop_spec h k rank hr _ _ hhome
    · have := hb _ hhome
      omega
    · intro x hx hkx
      have := h.reach x hx
      rw [hkx] at this
      exact this

/-- Transfer of the invariant to a table that differs only in tombstone flags,
stored values and `size_`. -/
theorem WF.of_same_shape (h : WF hash m) (m' : HashMap K V)
    (hlen : m'.len_ = m.len_) (haddr : m'.address_len_ = m.address_len_)
    (hcur : m'.last_empty_ = m.last_empty_)
    (hoc : m'.occupied_count_ = m.occupied_count_)
    (hdl : m'.data_.length = m.data_.length) (hel : m'.erased_.length = m.erased_.length)
    (hocc : m'.occupied_ = m.occupied_) (hnext : m'.next_ = m.next_)
    (hkey : ∀ i, m'.key i = m.key i)
    (hdel : ∀ i, m'.del i = true → m.occ i = true)
    (hsize : m'.size_ = (List.range m.len_).countP m'.isLive) : WF hash m' := by
  have hO : m'.occ = m.occ := by funext i; simp [HashMap.occ, hocc]
  have hL : m'.link = m.link := by funext i; simp [HashMap.link, hnext]
  have hC : m'.Chain = m.Chain := by unfold HashMap.Chain; rw [hL]
  exact {
    data_len := by rw [hdl, hlen]; exact h.data_len
    next_len := by rw [hnext, hlen]; exact h.next_len
    occupied_len := by rw [hocc, hlen]; exact h.occupied_len
    erased_len := by rw [hel, hlen]; exact h.erased_len
    addr := by rw [haddr, hlen]; exact h.addr
    occ_count := by rw [hoc, hlen, hO]; exact h.occ_count
    size_count := by rw [hlen]; exact hsize
    del_occ := by rw [hO]; exact hdel
    cursor_lt := by rw [hlen, hcur]; exact h.cursor_lt
    above_cursor := by rw [hlen, hcur, hO]; exact h.above_cursor
    link_occ := by rw [hL, hO]; exact h.link_occ
    acyclic := by rw [hL]; exact h.acyclic
    reach := by
      intro i hi
      rw [hO] at hi
      rw [hC, hkey, haddr]
      exact h.reach i hi
    uniq := by
      intro i j hi hj
      rw [hO] at hi hj
      rw [hkey, hkey]
      exact h.uniq i j hi hj }

end FindErase

/-! ## Tombstoning and reviving a slot -/

section TombRevive

variable {K V : Type} [DecidableEq K] [Inhabited K] [Inhabited V]
variable {hash : K → Nat} {m : HashMap K V}

theorem tomb_isLive (h : WF hash m) {r : Nat} (hr : r < m.len_) (i : Nat) :
    (m.tomb r).isLive i = if i = r then false else m.isLive i := by
  have hl : r < m.erased_.length := by rw [h.erased_len]; exact hr
  simp only [HashMap.isLive, HashMap.tomb, HashMap.occ, HashMap.del, getD_set]
  by_cases hir : i = r
  · subst hir; simp [hl]
  · have : ¬ r = i := fun e => hir e.symm
    simp [hir, this]

theorem tomb_wf (h : WF hash m) {r : Nat} (hr : m.isLive r = true) : WF hash (m.tomb r) := by
  have hrl := h.live_lt hr
  apply h.of_same_shape (m.tomb r) rfl rfl rfl rfl rfl (by simp [HashMap.tomb]) rfl rfl
    (fun i => rfl)
  · intro i hi
    simp only [HashMap.tomb, HashMap.del, getD_set] at hi
    split at hi
    · rename_i hc
      rw [← hc.1]
      simp only [HashMap.isLive, Bool.and_eq_true] at hr
      exact hr.1
    · exact h.del_occ i hi
  · have := countP_range_update m.isLive (m.tomb r).isLive r
      (fun i hi => by rw [tomb_isLive h hrl, if_neg hi]) m.len_ hrl
    rw [tomb_isLive h hrl, if_pos rfl, hr] at this
    simp only [Bool.toNat_true, Bool.toNat_false] at this
    have hs := h.size_count
    show m.size_ - 1 = _
    omega

theorem tomb_size (h : WF hash m) {r : Nat} (hr : m.isLive r = true) :
    (m.tomb r).size_ + 1 = m.size_ := by
  have hrl := h.live_lt hr
  have := countP_range_update m.isLive (m.tomb r).isLive r
      (fun i hi => by rw [tomb_isLive h hrl, if_neg hi]) m.len_ hrl
  rw [tomb_isLive h hrl, if_pos rfl, hr] at this
  simp only [Bool.toNat_true, Bool.toNat_false] at this
  have hs := h.size_count
  show m.size_ - 1 + 1 = _
  omega

theorem tomb_has (h : WF hash m) {r : Nat} (hr : m.isLive r = true) (k : K) (v : V) :
    (m.tomb r).has k v ↔ (k ≠ m.key r ∧ m.has k v) := by
  have hrl := h.live_lt hr
  constructor
  · rintro ⟨i, hi, he⟩
    rw [tomb_isLive h hrl] at hi
    by_cases hir : i = r
    · simp [hir] at hi
    · rw [if_neg hir] at hi
      have he' : m.entry i = (k, v) := he
      refine ⟨?_, i, hi, he'⟩
      intro hk
      apply hir
      apply h.live_unique hi hr
      rw [has_key he', hk]
  · rintro ⟨hk, i, hi, he⟩
    refine ⟨i, ?_, he⟩
    rw [tomb_isLive h hrl]
    have : i ≠ r := by
      intro hir
      apply hk
      rw [← hir, has_key he]
    rw [if_neg this]
    exact hi

theorem revive_isLive (h : WF hash m) {r : Nat} (ho : m.occ r = true) (v : V) (i : Nat) :
    (m.revive r v).isLive i = if i = r then true else m.isLive i := by
  have hr := h.occ_lt ho
  have hl : r < m.erased_.length := by rw [h.erased_len]; exact hr
  simp only [HashMap.isLive, HashMap.revive, HashMap.occ, HashMap.del, getD_set]
  by_cases hir : i = r
  · subst hir
    have ho' : m.occupied_.getD i false = true := ho
    rw [if_pos ⟨rfl, hl⟩, if_pos rfl, ho']
    rfl
  · have : ¬ r = i := fun e => hir e.symm
    simp [hir, this]

theorem revive_entry (h : WF hash m) {r : Nat} (ho : m.occ r = true) (v : V) (i : Nat) :
    (m.revive r v).entry i = if i = r then (m.key r, v) else m.entry i := by
  have hr := h.occ_lt ho
  have hl : r < m.data_.length := by rw [h.data_len]; exact hr
  simp only [HashMap.revive, HashMap.entry, getD_set]
  by_cases hir : i = r
  · subst hir; simp [hl]
  · have : ¬ r = i := fun e => hir e.symm
    simp [hir, this]

theorem revive_key (h : WF hash m) {r : Nat} (ho : m.occ r = true) (v : V) (i : Nat) :
    (m.revive r v).key i = m.key i := by
  unfold HashMap.key
  rw [revive_entry h ho]
  split
  · rename_i hir; rw [hir]; rfl
  · rfl

theorem revive_size (h : WF hash m) {r : Nat} (ho : m.occ r = true) (hd : m.del r = true)
    (v : V) : (m.revive r v).size_ = (List.range m.len_).countP (m.revive r v).isLive := by
  have hrl := h.occ_lt ho
  have := countP_range_update m.isLive (m.revive r v).isLive r
      (fun i hi => by rw [revive_isLive h ho, if_neg hi]) m.len_ hrl
  rw [revive_isLive h ho, if_pos rfl] at this
  have hnl : m.isLive r = false := by simp [HashMap.isLive, hd]
  rw [hnl] at this
  simp only [Bool.toNat_true, Bool.toNat_false] at this
  have hs := h.size_count
  show m.size_ + 1 = _
  omega

theorem revive_wf (h : WF hash m) {r : Nat} (ho : m.occ r = true) (hd : m.del r = true)
    (v : V) : WF hash (m.revive r v) := by
  apply h.of_same_shape (m.revive r v) rfl rfl rfl rfl (by simp [HashMap.revive])
    (by simp [HashMap.revive]) rfl rfl (revive_key h ho v)
  · intro i hi
    simp only [HashMap.revive, HashMap.del, getD_set] at hi
    split at hi
    · cases hi
    · exact h.del_occ i hi
  · exact revive_size h ho hd v

theorem revive_has (h : WF hash m) {r : Nat} (ho : m.occ r = true) (hd : m.del r = true)
    (v : V) (k' : K) (v' : V) :
    (m.revive r v).has k' v' ↔ ((k' = m.key r ∧ v' = v) ∨ (k' ≠ m.key r ∧ m.has k' v')) := by
  have hnl : m.isLive r = false := by simp [HashMap.isLive, hd]
  constructor
  · rintro ⟨i, hi, he⟩
    rw [revive_isLive h ho] at hi
    rw [revive_entry h ho] at he
    by_cases hir : i = r
    · rw [if_pos hir] at he
      left
      have := Prod.mk.inj he
      exact ⟨this.1.symm, this.2.symm⟩
    · rw [if_neg hir] at hi he
      right
      refine ⟨?_, i, hi, he⟩
      intro hk
      apply hir
      simp only [HashMap.isLive, Bool.and_eq_true] at hi
      apply h.uniq i r hi.1 ho
      rw [has_key he, hk]
  · rintro (⟨hk, hv⟩ | ⟨hk, i, hi, he⟩)
    · refine ⟨r, ?_, ?_⟩
      · rw [revive_isLive h ho, if_pos rfl]
      · rw [revive_entry h ho, if_pos rfl, hk, hv]
    · have hir : i ≠ r := by
        intro hir
        rw [hir, hnl] at hi
        cases hi
      refine ⟨i, ?_, ?_⟩
      · rw [revive_isLive h ho, if_neg hir]; exact hi
      · rw [revive_entry h ho, if_neg hir]; exact he

end TombRevive

/-! ## The free-slot cursor and the probe loop of `insert` -/

section Probe

variable {K V : Type} [DecidableEq K] [Inhabited K] [Inhabited V]
variable {hash : K → Nat} {m : HashMap K V}

theorem lastEmptyFrom_spec (occ : List Bool) :
    ∀ c, c < occ.length → (∃ t, t ≤ c ∧ occ.getD t false = false) →
      ∃ t, lastEmptyFrom occ c = some t ∧ t ≤ c ∧ occ.getD t false = false ∧
        ∀ i, t < i → i ≤ c → occ.getD i false = true := by
  intro c
  induction c with
  | zero =>
    intro hc ⟨t, ht, hf⟩
    have : t = 0 := by omega
    subst this
    refine ⟨0, ?_, le_refl _, hf, fun i h1 h2 => by omega⟩
    simp only [lastEmptyFrom, getElem?_eq_some_getD occ 0 false hc, Option.some_bind, hf]
    rfl
  | succ c ih =>
    intro hc ⟨t, ht, hf⟩
    simp only [lastEmptyFrom, getElem?_eq_some_getD occ (c + 1) false hc, Option.some_bind]
    cases ho : occ.getD (c + 1) false with
    | false =>
      exact ⟨c + 1, by simp, le_refl _, ho, fun i h1 h2 => by omega⟩
    | true =>
      have htc : t ≤ c := by
        rcases Nat.lt_or_ge c t with hlt | hge
        · have : t = c + 1 := by omega
          rw [this, ho] at hf
          cases hf
        · exact hge
      obtain ⟨u, hu1, hu2, hu3, hu4⟩ := ih (by omega) ⟨t, htc, hf⟩
      refine ⟨u, by simp [hu1], by omega, hu3, ?_⟩
      intro i h1 h2
      rcases Nat.lt_or_ge c i with hlt | hge
      · have : i = c + 1 := by omega
        rw [this, ho]
      · exact hu4 i h1 hge

theorem exists_false_of_countP_lt (p : Nat → Bool) (n : Nat)
    (h : (List.range n).countP p < n) : ∃ t, t < n ∧ p t = false := by
  by_contra hc
  have hall : ∀ a ∈ List.range n, p a = true := by
    intro a ha
    have ha' : a < n := List.mem_range.mp ha
    cases hp : p a with
    | true => rfl
    | false => exact absurd ⟨a, ha', hp⟩ hc
  have := (List.countP_eq_length (p := p) (l := List.range n)).2 hall
  rw [List.length_range] at this
  omega

theorem WF.exists_free (h : WF hash m) (hload : m.occupied_count_ < m.len_) :
    ∃ t, t < m.len_ ∧ m.occ t = false := by
  apply exists_false_of_countP_lt
  rw [← h.occ_count]
  omega

theorem get_last_empty_spec (h : WF hash m) (hfree : ∃ t, t < m.len_ ∧ m.occ t = false) :
    ∃ t, m.get_last_empty = some (t, { m with last_empty_ := t }) ∧ t < m.len_ ∧
      m.occ t = false ∧ t ≤ m.last_empty_ ∧ ∀ i, t < i → i < m.len_ → m.occ i = true := by
  obtain ⟨u, hu, hou⟩ := hfree
  have hl0 : m.len_ ≠ 0 := by omega
  have hc := h.cursor_lt hl0
  have hule : u ≤ m.last_empty_ := by
    rcases Nat.lt_or_ge m.last_empty_ u with hlt | hge
    · have := h.above_cursor u hlt hu
      rw [hou] at this
      cases this
    · exact hge
  obtain ⟨t, ht1, ht2, ht3, ht4⟩ := lastEmptyFrom_spec m.occupied_ m.last_empty_
    (by rw [h.occupied_len]; exact hc) ⟨u, hule, hou⟩
  refine ⟨t, ?_, by omega, ht3, ht2, ?_⟩
  · simp [HashMap.get_last_empty, ht1]
  · intro i h1 h2
    rcases Nat.lt_or_ge m.last_empty_ i with hlt | hge
    · exact h.above_cursor i hlt h2
    · exact ht4 i h1 hge

/-- The four ways the probe loop of `insert` can end on a well-formed table
that still has a free slot. -/
theorem insertLoop_spec (h : WF hash m) (e : K × V) (rank : Nat → Nat)
    (hr : ∀ i j, m.link i = some j → rank j < rank i)
    (hfree : ∃ t, t < m.len_ ∧ m.occ t = false) :
    ∀ f a, a < m.len_ → rank a + 3 ≤ f →
      (∀ x, m.occ x = true → m.key x = e.1 → m.Chain a x) →
      (∃ i, m.occ i = true ∧ m.key i = e.1 ∧ m.del i = false ∧
          insertLoop e f m a = some (Walk.returned m)) ∨
      (∃ i, m.occ i = true ∧ m.key i = e.1 ∧ m.del i = true ∧
          insertLoop e f m a = some (Walk.returned (m.revive i e.2))) ∨
      (m.occ a = false ∧ (∀ x, m.occ x = true → m.key x ≠ e.1) ∧
          insertLoop e f m a = some (Walk.exited m a)) ∨
      (m.occ a = true ∧ (∀ x, m.occ x = true → m.key x ≠ e.1) ∧
        ∃ t, t < m.len_ ∧ m.occ t = false ∧ t ≤ m.last_empty_ ∧
          (∀ i, t < i → i < m.len_ → m.occ i = true) ∧
          insertLoop e f m a = some (Walk.exited { m with last_empty_ := t } t)) := by
  intro f
  induction f with
  | zero => intro a _ hf; omega
  | succ f ih =>
    intro a ha hf hch
    simp only [insertLoop, h.read_occupied ha, h.read_data ha, h.read_erased ha,
      h.read_next ha, Option.some_bind]
    cases hoa : m.occ a with
    | false =>
      refine Or.inr (Or.inr (Or.inl ⟨rfl, ?_, by simp⟩))
      intro x hx hk
      have := chain_of_no_link (h.link_none_of_not_occ hoa) (hch x hx hk)
      rw [this, hoa] at hx
      cases hx
    | true =>
      by_cases hk : (m.entry a).1 = e.1
      · cases hda : m.del a with
        | false => exact Or.inl ⟨a, hoa, hk, hda, by simp [hk]⟩
        | true =>
          refine Or.inr (Or.inl ⟨a, hoa, hk, hda, ?_⟩)
          simp [hk, HashMap.revive, HashMap.key]
      · have hnone : ∀ x, m.occ x = true → m.key x = e.1 → x ≠ a := by
          intro x _ hkx hxa
          rw [hxa] at hkx
          exact hk hkx
        cases hla : m.link a with
        | none =>
          obtain ⟨t, ht1, ht2, ht3, ht4, ht5⟩ := get_last_empty_spec h hfree
          refine Or.inr (Or.inr (Or.inr ⟨rfl, ?_, t, ht2, ht3, ht4, ht5, ?_⟩))
          · intro x hx hkx
            exact hnone x hx hkx (chain_of_no_link hla (hch x hx hkx))
          · have hf' : f = (f - 1) + 1 := by omega
            have hrd : m.occupied_[t]? = some false := by
              rw [h.read_occupied ht2, ht3]
            rw [hf']
            simp [hk, ht1, insertLoop, hrd]
        | some b =>
          have hob := (h.link_occ a b hla).2
          have hb : b < m.len_ := h.occ_lt hob
          have hrb := hr a b hla
          have hrec := ih b hb (by omega) (fun x hx hkx =>
            chain_step hla (hch x hx hkx) (hnone x hx hkx))
          simp only [hk, if_false, Bool.not_true, Bool.false_eq_true]
          rcases hrec with ⟨i, h1, h2, h3, h4⟩ | ⟨i, h1, h2, h3, h4⟩ | ⟨h1, h2, h3⟩ |
              ⟨h1, h2, t, h3, h4, h5, h6, h7⟩
          · exact Or.inl ⟨i, h1, h2, h3, h4⟩
          · exact Or.inr (Or.inl ⟨i, h1, h2, h3, h4⟩)
          · rw [hob] at h1; cases h1
          · exact Or.inr (Or.inr (Or.inr ⟨trivial, h2, t, h3, h4, h5, h6, h7⟩))

end Probe

/-! ## Writing a new entry into a free slot -/

section Fresh

variable {K V : Type} [DecidableEq K] [Inhabited K] [Inhabited V]
variable {hash : K → Nat} {m : HashMap K V}

theorem WF.del_false_of_not_occ (h : WF hash m) {t : Nat} (ht : m.occ t = false) :
    m.del t = false := by
  cases hd : m.del t with
  | false => rfl
  | true =>
    have := h.del_occ t hd
    rw [ht] at this
    cases this

/-- Old chains survive the splice of the fresh slot `t` right after `s`. -/
theorem chain_splice {m' : HashMap K V} {s t : Nat} (hlt : m.link t = none)
    (hlink : ∀ i, m'.link i = if i = s then some t else if i = t then m.link s else m.link i)
    (hst : t ≠ s) {a b : Nat} (hc : m.Chain a b) : m'.Chain a b := by
  induction hc with
  | refl => exact Relation.ReflTransGen.refl
  | tail hab hstep ih =>
    rename_i x y
    by_cases hxs : x = s
    · have h1 : m'.link s = some t := by rw [hlink, if_pos rfl]
      have h2 : m'.link t = some y := by
        rw [hlink, if_neg hst, if_pos rfl, ← hxs]
        exact hstep
      rw [hxs] at ih
      exact (ih.tail h1).tail h2
    · have hxt : x ≠ t := by
        intro hxt
        rw [hxt, hlt] at hstep
        cases hstep
      have : m'.link x = some y := by
        rw [hlink, if_neg hxs, if_neg hxt]
        exact hstep
      exact ih.tail this

/-- The invariant is kept when a new key is written into a free slot `t`:
either `t` is the home slot `s` itself and no link changes, or `t` comes from
the cursor and is linked right after the occupied home slot `s`. -/
theorem WF.insert_fresh (h : WF hash m) (m' : HashMap K V) (s t : Nat) (e : K × V)
    (hs : s = hash e.1 % m.address_len_) (htl : t < m.len_) (hot : m.occ t = false)
    (hnew : ∀ x, m.occ x = true → m.key x ≠ e.1)
    (hlen : m'.len_ = m.len_) (haddr : m'.address_len_ = m.address_len_)
    (hdl : m'.data_.length = m.len_) (hnl : m'.next_.length = m.len_)
    (hol : m'.occupied_.length = m.len_) (hel : m'.erased_.length = m.len_)
    (hsz : m'.size_ = m.size_ + 1) (hoc : m'.occupied_count_ = m.occupied_count_ + 1)
    (hocc : ∀ i, m'.occ i = if i = t then true else m.occ i)
    (hdel : ∀ i, m'.del i = m.del i)
    (hentry : ∀ i, m'.entry i = if i = t then e else m.entry i)
    (hshape : (t = s ∧ (∀ i, m'.link i = m.link i) ∧ m'.last_empty_ = m.last_empty_) ∨
      (t ≠ s ∧ m.occ s = true ∧
        (∀ i, m'.link i = if i = s then some t else if i = t then m.link s else m.link i) ∧
        m'.last_empty_ = t ∧ ∀ i, t < i → i < m.len_ → m.occ i = true)) :
    WF hash m' := by
  have hdt := h.del_false_of_not_occ hot
  have hlt := h.link_none_of_not_occ hot
  have hmono : ∀ i, m.occ i = true → m'.occ i = true := by
    intro i hi
    rw [hocc]
    split
    · rfl
    · exact hi
  have hkey : ∀ i, i ≠ t → m'.key i = m.key i := by
    intro i hi
    unfold HashMap.key
    rw [hentry, if_neg hi]
  have hkt : m'.key t = e.1 := by
    unfold HashMap.key
    rw [hentry, if_pos rfl]
  have hlive : ∀ i, m'.isLive i = if i = t then true else m.isLive i := by
    intro i
    unfold HashMap.isLive
    rw [hocc, hdel]
    split
    · rename_i hit; rw [hit, hdt]; rfl
    · rfl
  have hne_t : ∀ i, m.occ i = true → i ≠ t := by
    intro i hi hit
    rw [hit, hot] at hi
    cases hi
  have hchain : ∀ a b, m.Chain a b → m'.Chain a b := by
    intro a b hab
    rcases hshape with ⟨_, hl, _⟩ | ⟨hts, _, hl, _, _⟩
    · have : m'.link = m.link := funext hl
      unfold HashMap.Chain
      rw [this]
      exact hab
    · exact chain_splice hlt hl hts hab
  exact {
    data_len := by rw [hdl, hlen]
    next_len := by rw [hnl, hlen]
    occupied_len := by rw [hol, hlen]
    erased_len := by rw [hel, hlen]
    addr := by rw [haddr, hlen]; exact h.addr
    occ_count := by
      have := countP_range_update m.occ m'.occ t (fun i hi => by rw [hocc, if_neg hi]) m.len_ htl
      rw [hocc t, if_pos rfl, hot] at this
      simp only [Bool.toNat_true, Bool.toNat_false] at this
      rw [hoc, hlen, h.occ_count]
      omega
    size_count := by
      have := countP_range_update m.isLive m'.isLive t
        (fun i hi => by rw [hlive, if_neg hi]) m.len_ htl
      have hnl : m.isLive t = false := by simp [HashMap.isLive, hot]
      rw [hlive t, if_pos rfl, hnl] at this
      simp only [Bool.toNat_true, Bool.toNat_false] at this
      rw [hsz, hlen, h.size_count]
      omega
    del_occ := by
      intro i hi
      rw [hdel] at hi
      exact hmono i (h.del_occ i hi)
    cursor_lt := by
      intro hl0
      rw [hlen] at hl0 ⊢
      rcases hshape with ⟨_, _, hc⟩ | ⟨_, _, _, hc, _⟩
      · rw [hc]; exact h.cursor_lt hl0
      · rw [hc]; exact htl
    above_cursor := by
      intro i h1 h2
      rw [hlen] at h2
      rcases hshape with ⟨_, _, hc⟩ | ⟨_, _, _, hc, hab⟩
      · rw [hc] at h1
        exact hmono i (h.above_cursor i h1 h2)
      · rw [hc] at h1
        exact hmono i (hab i h1 h2)
    link_occ := by
      intro i j hij
      rcases hshape with ⟨_, hl, _⟩ | ⟨hts, hos, hl, _, _⟩
      · rw [hl] at hij
        have := h.link_occ i j hij
        exact ⟨hmono i this.1, hmono j this.2⟩
      · rw [hl] at hij
        by_cases his : i = s
        · rw [if_pos his] at hij
          cases hij
          rw [his]
          exact ⟨hmono s hos, by rw [hocc, if_pos rfl]⟩
        · rw [if_neg his] at hij
          by_cases hit : i = t
          · rw [if_pos hit] at hij
            have := h.link_occ s j hij
            rw [hit]
            exact ⟨by rw [hocc, if_pos rfl], hmono j this.2⟩
          · rw [if_neg hit] at hij
            have := h.link_occ i j hij
            exact ⟨hmono i this.1, hmono j this.2⟩
    acyclic := by
      obtain ⟨rank, hr⟩ := h.acyclic
      rcases hshape with ⟨_, hl, _⟩ | ⟨hts, hos, hl, _, _⟩
      · exact ⟨rank, fun i j hij => hr i j (by rw [← hl]; exact hij)⟩
      · refine ⟨fun x => if x = t then 2 * rank s + 1 else 2 * rank x + 2, ?_⟩
        intro i j hij
        rw [hl] at hij
        by_cases his : i = s
        · rw [if_pos his] at hij
          have hj : j = t := (Option.some.inj hij).symm
          have hst : ¬ s = t := fun e => hts e.symm
          simp [his, hj, hst]
        · rw [if_neg his] at hij
          by_cases hit : i = t
          · rw [if_pos hit] at hij
            have hj := hne_t j (h.link_occ s j hij).2
            have := hr s j hij
            simp only [hit, if_true, hj, if_false]
            omega
          · rw [if_neg hit] at hij
            have hj := hne_t j (h.link_occ i j hij).2
            have := hr i j hij
            simp only [hit, hj, if_false]
            omega
    reach := by
      intro i hi
      rw [haddr]
      by_cases hit : i = t
      · rw [hit, hkt, ← hs]
        rcases hshape with ⟨hts, _, _⟩ | ⟨hts, _, hl, _, _⟩
        · rw [hts]; exact Relation.ReflTransGen.refl
        · apply Relation.ReflTransGen.single
          show m'.link s = some t
          rw [hl, if_pos rfl]
      · rw [hocc, if_neg hit] at hi
        rw [hkey i hit]
        exact hchain _ _ (h.reach i hi)
    uniq := by
      intro i j hi hj hk
      rw [hocc] at hi hj
      by_cases hit : i = t
      · by_cases hjt : j = t
        · rw [hit, hjt]
        · rw [if_neg hjt] at hj
          rw [hit, hkt, hkey j hjt] at hk
          exact absurd hk.symm (hnew j hj)
      · rw [if_neg hit] at hi
        by_cases hjt : j = t
        · rw [hjt, hkt, hkey i hit] at hk
          exact absurd hk (hnew i hi)
        · rw [if_neg hjt] at hj
          rw [hkey i hit, hkey j hjt] at hk
          exact h.uniq i j hi hj hk }

/-- The pairs held after a new key was written into the free slot `t`. -/
theorem has_insert_fresh (h : WF hash m) (m' : HashMap K V) (t : Nat) (e : K × V)
    (hot : m.occ t = false) (hnew : ∀ x, m.occ x = true → m.key x ≠ e.1)
    (hocc : ∀ i, m'.occ i = if i = t then true else m.occ i)
    (hdel : ∀ i, m'.del i = m.del i)
    (hentry : ∀ i, m'.entry i = if i = t then e else m.entry i) (k' : K) (v' : V) :
    m'.has k' v' ↔ ((k' = e.1 ∧ v' = e.2) ∨ (k' ≠ e.1 ∧ m.has k' v')) := by
  have hdt := h.del_false_of_not_occ hot
  have hlive : ∀ i, m'.isLive i = if i = t then true else m.isLive i := by
    intro i
    unfold HashMap.isLive
    rw [hocc, hdel]
    split
    · rename_i hit; rw [hit, hdt]; rfl
    · rfl
  constructor
  · rintro ⟨i, hi, he⟩
    rw [hlive] at hi
    rw [hentry] at he
    by_cases hit : i = t
    · rw [if_pos hit] at he
      left
      rw [he]
      exact ⟨rfl, rfl⟩
    · rw [if_neg hit] at hi he
      right
      refine ⟨?_, i, hi, he⟩
      intro hk
      simp only [HashMap.isLive, Bool.and_eq_true] at hi
      apply hnew i hi.1
      rw [has_key he, hk]
  · rintro (⟨hk, hv⟩ | ⟨hk, i, hi, he⟩)
    · refine ⟨t, by rw [hlive, if_pos rfl], ?_⟩
      rw [hentry, if_pos rfl, hk, hv]
    · have hit : i ≠ t := by
        intro hit
        simp only [HashMap.isLive, Bool.and_eq_true] at hi
        rw [hit, hot] at hi
        exact Bool.noConfusion hi.1
      exact ⟨i, by rw [hlive, if_neg hit]; exact hi, by rw [hentry, if_neg hit]; exact he⟩

end Fresh

/-! ## `insert` without growth -/

section Body

variable {K V : Type} [DecidableEq K] [Inhabited K] [Inhabited V]
variable {hash : K → Nat} {m : HashMap K V}

theorem set_getD_eq {α : Type} (l : List α) (t i : Nat) (a d : α) (ht : t < l.length) :
    (l.set t a).getD i d = if i = t then a else l.getD i d := by
  rw [getD_set]
  by_cases hit : i = t
  · subst hit; simp [ht]
  · have : ¬ t = i := fun e => hit e.symm
    simp [hit, this]

theorem place_occ (h : WF hash m) {t : Nat} (ht : t < m.len_) (e : K × V) (i : Nat) :
    (m.place t e).occ i = if i = t then true else m.occ i :=
  set_getD_eq _ _ _ _ _ (by rw [h.occupied_len]; exact ht)

theorem place_entry (h : WF hash m) {t : Nat} (ht : t < m.len_) (e : K × V) (i : Nat) :
    (m.place t e).entry i = if i = t then e else m.entry i :=
  set_getD_eq _ _ _ _ _ (by rw [h.data_len]; exact ht)

theorem splice_occ (h : WF hash m) (s : Nat) {t : Nat} (ht : t < m.len_) (e : K × V) (i : Nat) :
    (m.splice s t e).occ i = if i = t then true else m.occ i :=
  set_getD_eq _ _ _ _ _ (by rw [h.occupied_len]; exact ht)

theorem splice_entry (h : WF hash m) (s : Nat) {t : Nat} (ht : t < m.len_) (e : K × V)
    (i : Nat) : (m.splice s t e).entry i = if i = t then e else m.entry i :=
  set_getD_eq _ _ _ _ _ (by rw [h.data_len]; exact ht)

theorem splice_link (h : WF hash m) {s t : Nat} (hs : s < m.len_) (ht : t < m.len_)
    (e : K × V) (i : Nat) :
    (m.splice s t e).link i =
      if i = s then some t else if i = t then m.link s else m.link i := by
  show ((m.next_.set t (m.link s)).set s (some t)).getD i none = _
  rw [set_getD_eq _ _ _ _ _ (by rw [List.length_set, h.next_len]; exact hs),
    set_getD_eq _ _ _ _ _ (by rw [h.next_len]; exact ht)]
  rfl

theorem place_wf (h : WF hash m) (e : K × V) {s : Nat} (hs : s = hash e.1 % m.address_len_)
    (hsl : s < m.len_) (hos : m.occ s = false) (hnew : ∀ x, m.occ x = true → m.key x ≠ e.1) :
    WF hash (m.place s e) :=
  h.insert_fresh (m.place s e) s s e hs hsl hos hnew rfl rfl
    (by simp [HashMap.place, h.data_len]) h.next_len
    (by simp [HashMap.place, h.occupied_len]) h.erased_len rfl rfl
    (place_occ h hsl e) (fun _ => rfl) (place_entry h hsl e)
    (Or.inl ⟨rfl, fun _ => rfl, rfl⟩)

theorem splice_wf (h : WF hash m) (e : K × V) {s t : Nat}
    (hs : s = hash e.1 % m.address_len_) (hsl : s < m.len_) (hos : m.occ s = true)
    (htl : t < m.len_) (hot : m.occ t = false)
    (hnew : ∀ x, m.occ x = true → m.key x ≠ e.1)
    (habove : ∀ i, t < i → i < m.len_ → m.occ i = true) :
    WF hash (m.splice s t e) := by
  have hts : t ≠ s := by
    intro hts
    rw [hts, hos] at hot
    cases hot
  exact h.insert_fresh (m.splice s t e) s t e hs htl hot hnew rfl rfl
    (by simp [HashMap.splice, h.data_len]) (by simp [HashMap.splice, h.next_len])
    (by simp [HashMap.splice, h.occupied_len]) h.erased_len rfl rfl
    (splice_occ h s htl e) (fun _ => rfl) (splice_entry h s htl e)
    (Or.inr ⟨hts, hos, splice_link h hsl htl e, rfl, habove⟩)

/-- The four outcomes of `insert` after the load-factor check, on a
well-formed table with an unoccupied slot. -/
theorem insertBody_cases (h : WF hash m) (hload : m.occupied_count_ < m.len_)
    (e : K × V) :
    (∃ i, m.occ i = true ∧ m.key i = e.1 ∧ m.del i = false ∧
        insertBody hash m e = some m) ∨
    (∃ i, m.occ i = true ∧ m.key i = e.1 ∧ m.del i = true ∧
        insertBody hash m e = some (m.revive i e.2)) ∨
    (m.occ (hash e.1 % m.address_len_) = false ∧ (∀ x, m.occ x = true → m.key x ≠ e.1) ∧
        insertBody hash m e = some (m.place (hash e.1 % m.address_len_) e)) ∨
    (m.occ (hash e.1 % m.address_len_) = true ∧ (∀ x, m.occ x = true → m.key x ≠ e.1) ∧
      ∃ t, t < m.len_ ∧ m.occ t = false ∧ t ≤ m.last_empty_ ∧
        (∀ i, t < i → i < m.len_ → m.occ i = true) ∧
        insertBody hash m e = some (m.splice (hash e.1 % m.address_len_) t e)) := by
  have hl : m.len_ ≠ 0 := by omega
  have hap := h.addr_pos hl
  have hhome := h.home_lt hl e.1
  obtain ⟨rank, hr, hb⟩ := h.rank_bounded
  have hfree := h.exists_free hload
  have hbody : insertBody hash m e =
      (insertLoop e (m.len_ + 2) m (hash e.1 % m.address_len_)).bind fun w =>
        match w with
        | Walk.returned m1 => some m1
        | Walk.exited m1 index =>
          if index < m1.data_.length ∧ index < m1.occupied_.length then
            let m2 : HashMap K V := { m1 with
              data_ := m1.data_.set index e
              occupied_ := m1.occupied_.set index true
              size_ := m1.size_ + 1
              occupied_count_ := m1.occupied_count_ + 1 }
            if hash e.1 % m.address_len_ ≠ index then
              (m2.next_[hash e.1 % m.address_len_]?).bind fun ns =>
              if index < m2.next_.length then
                some { m2 with
                  next_ := (m2.next_.set index ns).set (hash e.1 % m.address_len_) (some index) }
              else none
            else some m2
          else none := by
    have hne : ¬ m.address_len_ = 0 := by omega
    exact if_neg hne
  have hspec := insertLoop_spec h e rank hr hfree (m.len_ + 2) _ hhome
    (by have := hb _ hhome; omega)
    (fun x hx hkx => by
      have := h.reach x hx
      rw [hkx] at this
      exact this)
  rcases hspec with ⟨i, h1, h2, h3, h4⟩ | ⟨i, h1, h2, h3, h4⟩ | ⟨h1, h2, h3⟩ |
      ⟨h1, h2, t, h3, h4, h5, h6, h7⟩
  · exact Or.inl ⟨i, h1, h2, h3, by rw [hbody, h4]; rfl⟩
  · exact Or.inr (Or.inl ⟨i, h1, h2, h3, by rw [hbody, h4]; rfl⟩)
  · refine Or.inr (Or.inr (Or.inl ⟨h1, h2, ?_⟩))
    rw [hbody, h3]
    simp only [Option.some_bind]
    rw [if_pos ⟨by rw [h.data_len]; exact hhome, by rw [h.occupied_len]; exact hhome⟩]
    simp only [ne_eq, not_true_eq_false, if_false]
    rfl
  · refine Or.inr (Or.inr (Or.inr ⟨h1, h2, t, h3, h4, h5, h6, ?_⟩))
    have hst : hash e.1 % m.address_len_ ≠ t := by
      intro hst
      rw [hst, h4] at h1
      cases h1
    rw [hbody, h7]
    simp only [Option.some_bind]
    rw [if_pos ⟨by show t < m.data_.length; rw [h.data_len]; exact h3,
      by show t < m.occupied_.length; rw [h.occupied_len]; exact h3⟩]
    simp only [ne_eq, hst, not_false_eq_true, if_true]
    have hrd : m.next_[hash e.1 % m.address_len_]? = some (m.link (hash e.1 % m.address_len_)) :=
      h.read_next hhome
    rw [hrd]
    simp only [Option.some_bind]
    rw [if_pos (by rw [h.next_len]; exact h3)]
    rfl

/-- On a well-formed table with an unoccupied slot, the part of `insert`
after the load-factor check returns a well-formed table described by
`InsertPost`. -/
theorem insertBody_spec (h : WF hash m) (hload : m.occupied_count_ < m.len_)
    (e : K × V) :
    ∃ m', insertBody hash m e = some m' ∧ WF hash m' ∧ InsertPost m e m' := by
  have hl : m.len_ ≠ 0 := by omega
  have hhome := h.home_lt hl e.1
  have hcontra : (∀ x, m.occ x = true → m.key x ≠ e.1) → ¬ ∃ v0, m.has e.1 v0 := by
    rintro hnew ⟨v0, i, hi, he⟩
    simp only [HashMap.isLive, Bool.and_eq_true] at hi
    exact hnew i hi.1 (has_key he)
  rcases insertBody_cases h hload e with ⟨i, h1, h2, h3, h4⟩ | ⟨i, h1, h2, h3, h4⟩ |
      ⟨h1, h2, h3⟩ | ⟨h1, h2, t, h3, h4, h5, h6, h7⟩
  · have hhas : m.has e.1 (m.entry i).2 :=
      ⟨i, by simp [HashMap.isLive, h1, h3], by rw [← h2]; rfl⟩
    exact ⟨m, h4, h, {
      len_eq := rfl, addr_eq := rfl
      live_dup := fun _ => rfl
      has_new := fun hn => absurd hhas (hn _)
      size_new := fun hn => absurd hhas (hn _)
      occ_le := by omega
      occ_ge := le_refl _
      no_del := fun hd => hd }⟩
  · have hno : ∀ v0, ¬ m.has e.1 v0 := by
      rintro v0 ⟨j, hj, he⟩
      have hj' := hj
      simp only [HashMap.isLive, Bool.and_eq_true] at hj'
      have : j = i := h.uniq j i hj'.1 h1 (by rw [has_key he, h2])
      rw [this] at hj'
      rw [h3] at hj'
      simp at hj'
    refine ⟨_, h4, revive_wf h h1 h3 e.2, {
      len_eq := rfl, addr_eq := rfl
      live_dup := fun ⟨v0, hv0⟩ => absurd hv0 (hno v0)
      has_new := fun _ k' v' => by rw [revive_has h h1 h3, h2]
      size_new := fun _ => rfl
      occ_le := by show m.occupied_count_ ≤ _; omega
      occ_ge := le_refl _
      no_del := fun hd => by rw [hd i] at h3; cases h3 }⟩
  · refine ⟨_, h3, place_wf h e rfl hhome h1 h2, {
      len_eq := rfl, addr_eq := rfl
      live_dup := fun hv => absurd hv (hcontra h2)
      has_new := fun _ k' v' => has_insert_fresh h _ _ e h1 h2 (place_occ h hhome e)
        (fun _ => rfl) (place_entry h hhome e) k' v'
      size_new := fun _ => rfl
      occ_le := le_refl _
      occ_ge := by show m.occupied_count_ ≤ m.occupied_count_ + 1; omega
      no_del := fun hd i => hd i }⟩
  · refine ⟨_, h7, splice_wf h e rfl hhome h1 h3 h4 h2 h6, {
      len_eq := rfl, addr_eq := rfl
      live_dup := fun hv => absurd hv (hcontra h2)
      has_new := fun _ k' v' => has_insert_fresh h _ _ e h4 h2 (splice_occ h _ h3 e)
        (fun _ => rfl) (splice_entry h _ h3 e) k' v'
      size_new := fun _ => rfl
      occ_le := le_refl _
      occ_ge := by show m.occupied_count_ ≤ m.occupied_count_ + 1; omega
      no_del := fun hd i => hd i }⟩

end Body

/-! ## `resize` -/

section Resize

variable {K V : Type} [DecidableEq K] [Inhabited K] [Inhabited V]
variable {hash : K → Nat} {m : HashMap K V}

theorem collectUpTo_spec (h : WF hash m) :
    ∀ i, i ≤ m.len_ →
      collectUpTo m i = some (((List.range i).filter m.isLive).map m.entry) := by
  intro i
  induction i with
  | zero => intro _; rfl
  | succ i ih =>
    intro hi
    have hil : i < m.len_ := by omega
    simp only [collectUpTo, ih (by omega), Option.some_bind, h.read_occupied hil,
      h.read_erased hil, h.read_data hil]
    rw [List.range_succ, List.filter_append, List.map_append]
    cases ho : m.occ i <;> cases hd : m.del i <;>
      simp [HashMap.isLive, ho, hd]

theorem collect_eq (h : WF hash m) :
    collectUpTo m m.len_ = some (m.liveIdx.map m.entry) :=
  collectUpTo_spec h m.len_ (le_refl _)

theorem vresize_vfill {α : Type} (l : List α) (n : Nat) (x : α) (h : l.length ≤ n) :
    vresize (vfill l x) n x = List.replicate n x := by
  unfold vresize vfill
  rw [List.take_replicate, List.length_replicate, Nat.min_eq_right h,
    List.append_replicate_replicate]
  congr 1
  omega

theorem getD_replicate_self {α : Type} (n i : Nat) (x : α) :
    (List.replicate n x).getD i x = x := by
  rw [List.getD_eq_getElem?_getD, List.getElem?_replicate]
  split <;> rfl

theorem regrown_occ (h : WF hash m) (i : Nat) : m.regrown.occ i = false := by
  show (vresize (vfill m.occupied_ false) (2 * m.len_ + 7) false).getD i false = false
  rw [vresize_vfill _ _ _ (by rw [h.occupied_len]; omega), getD_replicate_self]

theorem regrown_del (h : WF hash m) (i : Nat) : m.regrown.del i = false := by
  show (vresize (vfill m.erased_ false) (2 * m.len_ + 7) false).getD i false = false
  rw [vresize_vfill _ _ _ (by rw [h.erased_len]; omega), getD_replicate_self]

theorem regrown_link (h : WF hash m) (i : Nat) : m.regrown.link i = none := by
  show (vresize (vfill m.next_ none) (2 * m.len_ + 7) none).getD i none = none
  rw [vresize_vfill _ _ _ (by rw [h.next_len]; omega), getD_replicate_self]

theorem regrown_len (m : HashMap K V) : m.regrown.len_ = 2 * m.len_ + 7 := rfl

theorem regrown_wf (h : WF hash m) : WF hash m.regrown := by
  have hO : m.regrown.occ = fun _ => false := funext (regrown_occ h)
  have hlive : m.regrown.isLive = fun _ => false := by
    funext i
    simp [HashMap.isLive, regrown_occ h]
  exact {
    data_len := by
      show (vresize m.data_ (2 * m.len_ + 7) default).length = 2 * m.len_ + 7
      unfold vresize
      rw [List.length_append, List.length_take, List.length_replicate, h.data_len]
      omega
    next_len := by
      show (vresize (vfill m.next_ none) (2 * m.len_ + 7) none).length = 2 * m.len_ + 7
      rw [vresize_vfill _ _ _ (by rw [h.next_len]; omega), List.length_replicate]
    occupied_len := by
      show (vresize (vfill m.occupied_ false) (2 * m.len_ + 7) false).length = 2 * m.len_ + 7
      rw [vresize_vfill _ _ _ (by rw [h.occupied_len]; omega), List.length_replicate]
    erased_len := by
      show (vresize (vfill m.erased_ false) (2 * m.len_ + 7) false).length = 2 * m.len_ + 7
      rw [vresize_vfill _ _ _ (by rw [h.erased_len]; omega), List.length_replicate]
    addr := by
      show addressLen (2 * m.len_ + 7) =
        if 2 * m.len_ + 7 = 0 then 0 else addressLen (2 * m.len_ + 7)
      rw [if_neg (by omega)]
    occ_count := by
      rw [hO]
      show 0 = _
      simp
    size_count := by
      rw [hlive]
      show 0 = _
      simp
    del_occ := by
      intro i hi
      rw [regrown_del h] at hi
      cases hi
    cursor_lt := by
      intro _
      show 2 * m.len_ + 7 - 1 < 2 * m.len_ + 7
      omega
    above_cursor := by
      intro i h1 h2
      have h1' : 2 * m.len_ + 7 - 1 < i := h1
      have h2' : i < 2 * m.len_ + 7 := h2
      omega
    link_occ := by
      intro i j hij
      rw [regrown_link h] at hij
      cases hij
    acyclic := ⟨fun _ => 0, fun i j hij => by rw [regrown_link h] at hij; cases hij⟩
    reach := by
      intro i hi
      rw [regrown_occ h] at hi
      cases hi
    uniq := by
      intro i j hi
      rw [regrown_occ h] at hi
      cases hi }

theorem regrown_not_has (h : WF hash m) (k : K) (v : V) : ¬ m.regrown.has k v := by
  rintro ⟨i, hi, _⟩
  simp [HashMap.isLive, regrown_occ h] at hi

theorem insertDepth_below (d : Nat) (m : HashMap K V) (e : K × V)
    (hload : loadReached m.occupied_count_ m.len_ = false) :
    insertDepth hash (d + 1) m e = insertBody hash m e := by
  simp only [insertDepth]
  rw [if_neg (by rw [hload]; decide)]
  rfl

/-- Inserting a list of pairs with pairwise distinct new keys into a table
without tombstones that has room for them never grows the table. -/
theorem fold_insert_spec (d : Nat) :
    ∀ (l : List (K × V)) (m : HashMap K V), WF hash m → (∀ i, m.del i = false) →
      (l.map Prod.fst).Nodup → (∀ e ∈ l, ∀ v, ¬ m.has e.1 v) →
      4 * (m.occupied_count_ + l.length) ≤ 3 * m.len_ + 3 →
      ∃ m', l.foldlM (insertDepth hash (d + 1)) m = some m' ∧ WF hash m' ∧
        m'.len_ = m.len_ ∧ (∀ i, m'.del i = false) ∧
        (∀ k v, m'.has k v ↔ (m.has k v ∨ (k, v) ∈ l)) ∧
        m'.size_ = m.size_ + l.length ∧
        m'.occupied_count_ ≤ m.occupied_count_ + l.length := by
  intro l
  induction l with
  | nil =>
    intro m h hd _ _ _
    exact ⟨m, rfl, h, rfl, hd, by simp, rfl, le_refl _⟩
  | cons e l ih =>
    intro m h hd hnd hnew hload
    have hload' : loadReached m.occupied_count_ m.len_ = false := by
      simp only [List.length_cons] at hload
      exact loadReached_false (by omega)
    obtain ⟨m1, hb, hwf1, hp⟩ := insertBody_spec h (lt_of_loadReached_false hload') e
    have hne : ∀ v0, ¬ m.has e.1 v0 := hnew e (List.mem_cons_self _ _)
    have hnd' := hnd
    simp only [List.map_cons, List.nodup_cons] at hnd'
    obtain ⟨m', hf, hwf', hlen', hdel', hhas', hsz', hoc'⟩ := ih m1 hwf1 (hp.no_del hd) hnd'.2
      (by
        intro e' he' v hv
        rcases (hp.has_new hne e'.1 v).1 hv with ⟨hk, _⟩ | ⟨_, hm⟩
        · apply hnd'.1
          rw [← hk]
          exact List.mem_map_of_mem _ he'
        · exact hnew e' (List.mem_cons_of_mem _ he') v hm)
      (by
        have := hp.occ_le
        rw [hp.len_eq]
        simp only [List.length_cons] at hload
        omega)
    refine ⟨m', ?_, hwf', by rw [hlen', hp.len_eq], hdel', ?_, ?_, ?_⟩
    · rw [List.foldlM_cons, insertDepth_below d m e hload', hb]
      exact hf
    · intro k v
      rw [hhas', hp.has_new hne, List.mem_cons]
      constructor
      · rintro ((⟨hk, hv⟩ | ⟨_, hm⟩) | hm)
        · right; left
          rw [hk, hv]
        · left; exact hm
        · right; right; exact hm
      · rintro (hm | hm | hm)
        · left; right
          refine ⟨?_, hm⟩
          intro hk
          rw [hk] at hm
          exact hne v hm
        · left; left
          rw [← hm]
          exact ⟨rfl, rfl⟩
        · right; exact hm
    · rw [hsz', hp.size_new hne]
      simp only [List.length_cons]
      omega
    · have := hp.occ_le
      simp only [List.length_cons]
      omega

theorem liveIdx_mem (h : WF hash m) (i : Nat) : i ∈ m.liveIdx ↔ m.isLive i = true := by
  unfold HashMap.liveIdx
  rw [List.mem_filter, List.mem_range]
  exact ⟨fun hh => hh.2, fun hh => ⟨h.live_lt hh, hh⟩⟩

theorem liveIdx_nodup (m : HashMap K V) : m.liveIdx.Nodup :=
  (List.nodup_range _).filter _

theorem liveIdx_length (h : WF hash m) : m.liveIdx.length = m.size_ := by
  unfold HashMap.liveIdx
  rw [h.size_count, List.countP_eq_length_filter]

theorem liveKeys_nodup (h : WF hash m) : (m.liveIdx.map m.key).Nodup := by
  apply List.Nodup.map_on _ (liveIdx_nodup m)
  intro i hi j hj hk
  exact h.live_unique ((liveIdx_mem h i).1 hi) ((liveIdx_mem h j).1 hj) hk

theorem mem_collected (h : WF hash m) (k : K) (v : V) :
    (k, v) ∈ m.liveIdx.map m.entry ↔ m.has k v := by
  rw [List.mem_map]
  constructor
  · rintro ⟨i, hi, he⟩
    exact ⟨i, (liveIdx_mem h i).1 hi, he⟩
  · rintro ⟨i, hi, he⟩
    exact ⟨i, (liveIdx_mem h i).2 hi, he⟩

theorem WF.size_le (h : WF hash m) : m.size_ ≤ m.len_ := by
  rw [h.size_count]
  have := List.countP_le_length m.isLive (l := List.range m.len_)
  rwa [List.length_range] at this

theorem WF.occ_eq_size_of_no_del (h : WF hash m) (hd : ∀ i, m.del i = false) :
    m.occupied_count_ = m.size_ := by
  rw [h.occ_count, h.size_count]
  apply List.countP_congr
  intro i _
  simp [HashMap.isLive, hd i]

/-- On a well-formed table `resize` returns a well-formed table of capacity
`2 * len_ + 7` that holds the same pairs, has no tombstone and has fewer than
three quarters of its slots occupied. -/
theorem resize_spec (d : Nat) (h : WF hash m) :
    ∃ m1, resizeWith (insertDepth hash (d + 1)) m = some m1 ∧ WF hash m1 ∧
      m1.len_ = 2 * m.len_ + 7 ∧ (∀ k v, m1.has k v ↔ m.has k v) ∧
      m1.size_ = m.size_ ∧ (∀ i, m1.del i = false) ∧
      m1.occupied_count_ = m1.size_ ∧ 4 * m1.occupied_count_ < 3 * m1.len_ := by
  have hsz := h.size_le
  have hlen : (m.liveIdx.map m.entry).length = m.size_ := by
    rw [List.length_map, liveIdx_length h]
  obtain ⟨m1, hf, hwf, hl, hdel, hhas, hs, _⟩ :=
    fold_insert_spec d (m.liveIdx.map m.entry) m.regrown (regrown_wf h)
      (regrown_del h)
      (by
        rw [List.map_map]
        exact liveKeys_nodup h)
      (fun e _ v => regrown_not_has h e.1 v)
      (by
        rw [hlen, regrown_len]
        show 4 * (0 + m.size_) ≤ _
        omega)
  have hs' : m1.size_ = m.size_ := by
    rw [hs, hlen]
    show 0 + m.size_ = m.size_
    omega
  have hoc := hwf.occ_eq_size_of_no_del hdel
  refine ⟨m1, ?_, hwf, by rw [hl, regrown_len], ?_, hs', hdel, hoc, ?_⟩
  · unfold resizeWith
    rw [collect_eq h, Option.some_bind]
    exact hf
  · intro k v
    rw [hhas, mem_collected h]
    constructor
    · rintro (hh | hh)
      · exact absurd hh (regrown_not_has h k v)
      · exact hh
    · exact Or.inr
  · rw [hoc, hs', hl, regrown_len]
    omega

end Resize

/-! ## `insert`, `operator[]` and reachable tables -/

section Ops

variable {K V : Type} [DecidableEq K] [Inhabited K] [Inhabited V]
variable {hash : K → Nat} {m : HashMap K V}

/-- On a well-formed table `insert` returns a well-formed table: unchanged
contents and size when the key is live, the new pair added otherwise; the
capacity grows to `2 * len_ + 7` exactly when the load threshold is reached. -/
theorem insert_spec (h : WF hash m) (e : K × V) :
    ∃ m', m.insert hash e = some m' ∧ WF hash m' ∧
      ((∃ v0, m.has e.1 v0) → (∀ k v, m'.has k v ↔ m.has k v) ∧ m'.size_ = m.size_) ∧
      ((∀ v0, ¬ m.has e.1 v0) →
        (∀ k' v', m'.has k' v' ↔ ((k' = e.1 ∧ v' = e.2) ∨ (k' ≠ e.1 ∧ m.has k' v'))) ∧
        m'.size_ = m.size_ + 1) ∧
      m'.len_ = (if loadReached m.occupied_count_ m.len_ then 2 * m.len_ + 7 else m.len_) := by
  by_cases hc : loadReached m.occupied_count_ m.len_ = true
  · obtain ⟨m1, hr, hwf1, hl1, hhas1, hs1, _, _, hload1⟩ := resize_spec 0 h
    obtain ⟨m', hb, hwf', hp⟩ := insertBody_spec hwf1 (by omega) e
    refine ⟨m', ?_, hwf', ?_, ?_, ?_⟩
    · show (if loadReached m.occupied_count_ m.len_ then resizeWith (insertDepth hash 1) m
          else some m).bind (fun m1 => insertBody hash m1 e) = some m'
      have hr' : resizeWith (insertDepth hash 1) m = some m1 := hr
      rw [if_pos hc, hr', Option.some_bind]
      exact hb
    · rintro ⟨v0, hv0⟩
      have := hp.live_dup ⟨v0, (hhas1 _ _).2 hv0⟩
      rw [this]
      exact ⟨hhas1, hs1⟩
    · intro hn
      have hn1 : ∀ v0, ¬ m1.has e.1 v0 := fun v0 hv0 => hn v0 ((hhas1 _ _).1 hv0)
      refine ⟨fun k' v' => ?_, ?_⟩
      · rw [hp.has_new hn1, hhas1]
      · rw [hp.size_new hn1, hs1]
    · rw [if_pos hc, hp.len_eq, hl1]
  · have hload : loadReached m.occupied_count_ m.len_ = false := by
      simpa using hc
    obtain ⟨m', hb, hwf', hp⟩ := insertBody_spec h (lt_of_loadReached_false hload) e
    refine ⟨m', ?_, hwf', ?_, ?_, ?_⟩
    · show insertDepth hash 2 m e = some m'
      rw [insertDepth_below 1 m e hload]
      exact hb
    · intro hv
      rw [hp.live_dup hv]
      exact ⟨fun _ _ => Iff.rfl, rfl⟩
    · intro hn
      exact ⟨hp.has_new hn, hp.size_new hn⟩
    · rw [if_neg hc, hp.len_eq]

theorem brackets_of_has (h : WF hash m) {k : K} {v : V} (hh : m.has k v) :
    m.operator_brackets hash k = some (Except.ok v, m) := by
  obtain ⟨i, hf, hi, _, he⟩ := find_of_has h hh
  unfold HashMap.operator_brackets
  rw [hf, Option.some_bind, if_neg (by unfold HashMap.end_; omega), deref_lt h hi, he]
  rfl

theorem brackets_of_not_has (h : WF hash m) {k : K} (hn : ∀ v, ¬ m.has k v) :
    ∃ m', m.insert hash (k, default) = some m' ∧
      m.operator_brackets hash k = some (Except.ok default, m') := by
  obtain ⟨m', hins, hwf', _, hnew, _⟩ := insert_spec h (k, default)
  refine ⟨m', hins, ?_⟩
  have hh : m'.has k default := ((hnew hn).1 k default).2 (Or.inl ⟨rfl, rfl⟩)
  obtain ⟨i, hf, hi, _, he⟩ := find_of_has hwf' hh
  unfold HashMap.operator_brackets
  rw [find_of_not_has h hn, Option.some_bind, if_pos rfl, hins, Option.some_bind, hf,
    Option.some_bind, deref_lt hwf' hi, he]
  rfl

theorem empty_wf : WF hash (HashMap.empty : HashMap K V) where
  data_len := rfl
  next_len := rfl
  occupied_len := rfl
  erased_len := rfl
  addr := rfl
  occ_count := rfl
  size_count := rfl
  del_occ := fun i hi => by simp [HashMap.del, HashMap.empty] at hi
  cursor_lt := fun hl => absurd rfl hl
  above_cursor := fun i _ hi => by
    have : i < 0 := hi
    omega
  link_occ := fun i j hij => by simp [HashMap.link, HashMap.empty] at hij
  acyclic := ⟨fun _ => 0, fun i j hij => by simp [HashMap.link, HashMap.empty] at hij⟩
  reach := fun i hi => by simp [HashMap.occ, HashMap.empty] at hi
  uniq := fun i j hi => by simp [HashMap.occ, HashMap.empty] at hi

theorem clear_eq_empty (m : HashMap K V) : m.clear = HashMap.empty := rfl

theorem empty_not_has (k : K) (v : V) : ¬ (HashMap.empty : HashMap K V).has k v := by
  rintro ⟨i, hi, _⟩
  simp [HashMap.isLive, HashMap.occ, HashMap.empty] at hi

/-- Every public operation returns on a well-formed table, keeps the
invariant, and changes the held pairs as the abstract map prescribes. -/
theorem step_spec (h : WF hash m) (f : K → Option V)
    (hf : ∀ k v, m.has k v ↔ f k = some v) (op : Op K V) :
    ∃ m', m.step hash op = some m' ∧ WF hash m' ∧
      ∀ k v, m'.has k v ↔ modelStep f op k = some v := by
  have insert_case : ∀ e : K × V, ∃ m', m.insert hash e = some m' ∧ WF hash m' ∧
      ∀ k v, m'.has k v ↔ (if k = e.1 then some ((f k).getD e.2) else f k) = some v := by
    intro e
    obtain ⟨m', hins, hwf', hdup, hnew, _⟩ := insert_spec h e
    refine ⟨m', hins, hwf', fun k v => ?_⟩
    rcases has_or_not m e.1 with ⟨v0, hv0⟩ | hn
    · rw [(hdup ⟨v0, hv0⟩).1, hf]
      by_cases hk : k = e.1
      · rw [if_pos hk, hk, (hf _ _).1 hv0]
        rfl
      · rw [if_neg hk]
    · have hfn : f e.1 = none := by
        cases hfe : f e.1 with
        | none => rfl
        | some v1 => exact absurd ((hf _ _).2 hfe) (hn v1)
      rw [(hnew hn).1]
      by_cases hk : k = e.1
      · rw [if_pos hk, hk, hfn]
        constructor
        · rintro (⟨_, hv⟩ | ⟨hne, _⟩)
          · rw [hv]; rfl
          · exact absurd rfl hne
        · intro hv
          left
          exact ⟨rfl, (Option.some.inj hv).symm⟩
      · rw [if_neg hk, ← hf]
        constructor
        · rintro (⟨hke, _⟩ | ⟨_, hm⟩)
          · exact absurd hke hk
          · exact hm
        · intro hm
          exact Or.inr ⟨hk, hm⟩
  cases op with
  | insert e => exact insert_case e
  | erase k0 =>
    obtain ⟨m', he, hcase⟩ := erase_spec h k0
    refine ⟨m', he, ?_⟩
    rcases hcase with ⟨r, hr, hk, hm'⟩ | ⟨hn, hm'⟩
    · rw [hm']
      refine ⟨tomb_wf h hr, fun k v => ?_⟩
      rw [tomb_has h hr, hk]
      show _ ↔ (if k = k0 then none else f k) = some v
      by_cases hkk : k = k0
      · rw [if_pos hkk]
        constructor
        · rintro ⟨hne, _⟩
          exact absurd hkk hne
        · intro hv
          cases hv
      · rw [if_neg hkk, ← hf]
        exact ⟨fun hh => hh.2, fun hh => ⟨hkk, hh⟩⟩
    · rw [hm']
      refine ⟨h, fun k v => ?_⟩
      show _ ↔ (if k = k0 then none else f k) = some v
      by_cases hkk : k = k0
      · rw [if_pos hkk, hkk]
        constructor
        · rintro ⟨i, hi, hei⟩
          exact absurd (has_key hei) (hn i hi)
        · intro hv
          cases hv
      · rw [if_neg hkk, ← hf]
  | index k0 =>
    show ∃ m', (m.operator_brackets hash k0).map Prod.snd = some m' ∧ _
    rcases has_or_not m k0 with ⟨v0, hv0⟩ | hn
    · rw [brackets_of_has h hv0]
      refine ⟨m, rfl, h, fun k v => ?_⟩
      show _ ↔ (if k = k0 then some ((f k).getD default) else f k) = some v
      rw [hf]
      by_cases hk : k = k0
      · rw [if_pos hk, hk, (hf _ _).1 hv0]
        rfl
      · rw [if_neg hk]
    · obtain ⟨m', hins, hbr⟩ := brackets_of_not_has h hn
      rw [hbr]
      obtain ⟨m2, hins2, hwf2, hspec2⟩ := insert_case (k0, default)
      rw [hins] at hins2
      cases hins2
      exact ⟨m', rfl, hwf2, hspec2⟩
  | clear =>
    refine ⟨m.clear, rfl, empty_wf, fun k v => ?_⟩
    show _ ↔ (none : Option V) = some v
    constructor
    · intro hh
      exact absurd hh (empty_not_has k v)
    · intro hv
      cases hv

theorem WF.exists_model (h : WF hash m) :
    ∃ f : K → Option V, ∀ k v, m.has k v ↔ f k = some v := by
  classical
  refine ⟨fun k => if hk : ∃ v, m.has k v then some hk.choose else none, fun k v => ?_⟩
  constructor
  · intro hv
    have hk : ∃ v, m.has k v := ⟨v, hv⟩
    simp only [dif_pos hk]
    rw [h.has_unique hk.choose_spec hv]
  · intro hv
    by_cases hk : ∃ v, m.has k v
    · simp only [dif_pos hk] at hv
      rw [← Option.some.inj hv]
      exact hk.choose_spec
    · simp only [dif_neg hk] at hv
      cases hv

theorem step_wf (h : WF hash m) (op : Op K V) :
    ∃ m', m.step hash op = some m' ∧ WF hash m' := by
  obtain ⟨f, hf⟩ := h.exists_model
  obtain ⟨m', h1, h2, _⟩ := step_spec h f hf op
  exact ⟨m', h1, h2⟩

/-- Every reachable table satisfies the representation invariant. -/
theorem Reachable.wf {m : HashMap K V} (hr : Reachable hash m) : WF hash m := by
  induction hr with
  | empty => exact empty_wf
  | step op _ hs ih =>
    obtain ⟨m2, h2, hwf⟩ := step_wf ih op
    rw [hs] at h2
    cases h2
    exact hwf

end Ops

/-! ## Operation sequences and the abstract map -/

section Runs

variable {K V : Type} [DecidableEq K] [Inhabited K] [Inhabited V]
variable {hash : K → Nat} {m : HashMap K V}

theorem foldl_step_spec :
    ∀ (ops : List (Op K V)) (m : HashMap K V) (f : K → Option V), WF hash m →
      (∀ k v, m.has k v ↔ f k = some v) →
      ∃ m', ops.foldlM (fun m op => m.step hash op) m = some m' ∧ WF hash m' ∧
        ∀ k v, m'.has k v ↔ ops.foldl modelStep f k = some v := by
  intro ops
  induction ops with
  | nil => intro m f h hf; exact ⟨m, rfl, h, hf⟩
  | cons op ops ih =>
    intro m f h hf
    obtain ⟨m1, h1, hwf1, hf1⟩ := step_spec h f hf op
    obtain ⟨m', h2, hwf', hf'⟩ := ih m1 (modelStep f op) hwf1 hf1
    refine ⟨m', ?_, hwf', hf'⟩
    rw [List.foldlM_cons, h1]
    exact h2

/-- Every sequence of operations on the empty table returns, and the pairs
held by the resulting table are those of the abstract map. -/
theorem run_spec (hash : K → Nat) (ops : List (Op K V)) :
    ∃ m, HashMap.run hash ops = some m ∧ WF hash m ∧
      ∀ k v, m.has k v ↔ model ops k = some v :=
  foldl_step_spec ops HashMap.empty (fun _ => none) empty_wf (fun k v =>
    ⟨fun hh => absurd hh (empty_not_has k v), fun hv => by cases hv⟩)

theorem run_append_one (ops : List (Op K V)) (op : Op K V) :
    HashMap.run hash (ops ++ [op]) = (HashMap.run hash ops).bind fun m => m.step hash op := by
  unfold HashMap.run
  rw [List.foldlM_append]
  cases h : List.foldlM (fun m op => m.step hash op) HashMap.empty ops with
  | none => rfl
  | some m1 =>
    show (List.foldlM (fun m op => m.step hash op) m1 [op]) = m1.step hash op
    rw [List.foldlM_cons]
    cases h2 : m1.step hash op <;> rfl

theorem reachable_iff_run (m : HashMap K V) :
    Reachable hash m ↔ ∃ ops, HashMap.run hash ops = some m := by
  constructor
  · intro hr
    induction hr with
    | empty => exact ⟨[], rfl⟩
    | step op _ hs ih =>
      obtain ⟨ops, hops⟩ := ih
      refine ⟨ops ++ [op], ?_⟩
      rw [run_append_one, hops, Option.some_bind]
      exact hs
  · rintro ⟨ops, hops⟩
    induction ops using List.reverseRecOn generalizing m with
    | nil =>
      have : (HashMap.empty : HashMap K V) = m := Option.some.inj hops
      rw [← this]
      exact Reachable.empty
    | append_singleton ops op ih =>
      rw [run_append_one] at hops
      cases h1 : HashMap.run hash ops with
      | none => rw [h1] at hops; cases hops
      | some m1 =>
        rw [h1, Option.some_bind] at hops
        exact Reachable.step op (ih m1 h1) hops

theorem find_ne_end_iff_has (h : WF hash m) (k : K) :
    (∃ i, m.find hash k = some i ∧ i ≠ m.end_) ↔ ∃ v, m.has k v := by
  constructor
  · rintro ⟨i, hf, hi⟩
    rcases has_or_not m k with hv | hn
    · exact hv
    · rw [find_of_not_has h hn] at hf
      exact absurd (Option.some.inj hf).symm hi
  · rintro ⟨v, hv⟩
    obtain ⟨i, hf, hi, _, _⟩ := find_of_has h hv
    exact ⟨i, hf, by unfold HashMap.end_; omega⟩

theorem liveKeys_mem (h : WF hash m) (k : K) :
    k ∈ m.liveIdx.map m.key ↔ ∃ v, m.has k v := by
  rw [List.mem_map]
  constructor
  · rintro ⟨i, hi, hk⟩
    exact ⟨(m.entry i).2, i, (liveIdx_mem h i).1 hi, by rw [← hk]; rfl⟩
  · rintro ⟨v, i, hi, he⟩
    exact ⟨i, (liveIdx_mem h i).2 hi, has_key he⟩

end Runs

/-! ## Iteration -/

section Iteration

variable {K V : Type} [DecidableEq K] [Inhabited K] [Inhabited V]
variable {hash : K → Nat} {m : HashMap K V}

theorem skipLoop_spec (h : WF hash m) :
    ∀ f i, i ≤ m.len_ → m.len_ - i < f →
      ∃ j, skipLoop m f i = some j ∧ i ≤ j ∧ j ≤ m.len_ ∧ (j < m.len_ → m.isLive j = true) ∧
        (List.range' i (m.len_ - i)).filter m.isLive =
          if j < m.len_ then j :: (List.range' (j + 1) (m.len_ - (j + 1))).filter m.isLive
          else [] := by
  intro f
  induction f with
  | zero => intro i _ hf; omega
  | succ f ih =>
    intro i hi hf
    by_cases hil : i < m.len_
    · have hr : List.range' i (m.len_ - i) = i :: List.range' (i + 1) (m.len_ - (i + 1)) := by
        have : m.len_ - i = (m.len_ - (i + 1)) + 1 := by omega
        rw [this, List.range'_succ]
      simp only [skipLoop, if_pos hil, h.read_occupied hil, h.read_erased hil, Option.some_bind]
      by_cases hlive : m.isLive i = true
      · have hl2 := hlive
        simp only [HashMap.isLive, Bool.and_eq_true, Bool.not_eq_true'] at hl2
        refine ⟨i, by simp [hl2.1, hl2.2], le_refl _, hi, fun _ => hlive, ?_⟩
        rw [if_pos hil, hr, List.filter_cons_of_pos hlive]
      · obtain ⟨j, hj1, hj2, hj3, hj4, hj5⟩ := ih (i + 1) (by omega) (by omega)
        refine ⟨j, ?_, by omega, hj3, hj4, ?_⟩
        · rw [← hj1]
          simp only [HashMap.isLive, Bool.and_eq_true, Bool.not_eq_true', not_and,
            Bool.not_eq_false] at hlive
          cases ho : m.occ i with
          | false => simp
          | true => simp [hlive ho]
        · rw [hr, List.filter_cons_of_neg hlive]
          exact hj5
    · have hie : i = m.len_ := by omega
      refine ⟨i, by simp [skipLoop, hil], le_refl _, hi, fun hh => absurd hh hil, ?_⟩
      rw [if_neg hil, hie]
      simp

theorem iterateFrom_spec (h : WF hash m) :
    ∀ f j, j ≤ m.len_ → m.len_ - j < f →
      iterateFrom m f j = some
        (if j < m.len_ then j :: (List.range' (j + 1) (m.len_ - (j + 1))).filter m.isLive
         else []) := by
  intro f
  induction f with
  | zero => intro j _ hf; omega
  | succ f ih =>
    intro j hj hf
    by_cases hjl : j < m.len_
    · obtain ⟨j', h1, h2, h3, _, h5⟩ := skipLoop_spec h (m.len_ + 1) (j + 1) (by omega) (by omega)
      have hadv : m.advance j = some j' := h1
      simp only [iterateFrom, HashMap.end_]
      rw [if_neg (by omega), hadv, Option.some_bind, ih j' h3 (by omega), if_pos hjl, h5]
      rfl
    · have : j = m.len_ := by omega
      simp only [iterateFrom, HashMap.end_]
      rw [if_pos this, if_neg hjl]

/-- A full traversal visits exactly the live slots, in increasing order. -/
theorem traverse_spec (h : WF hash m) : m.traverse = some m.liveIdx := by
  obtain ⟨j, h1, _, h3, _, h5⟩ := skipLoop_spec h (m.len_ + 1) 0 (by omega) (by omega)
  have hb : m.begin = some j := h1
  unfold HashMap.traverse
  rw [hb, Option.some_bind, iterateFrom_spec h _ j h3 (by omega), ← h5]
  unfold HashMap.liveIdx
  rw [List.range_eq_range']
  rfl

theorem liveIdx_sorted (m : HashMap K V) : m.liveIdx.Sorted (· < ·) :=
  (List.pairwise_lt_range _).sublist (List.filter_sublist _)

end Iteration

/-! ## The abstract map and the history of a key -/

section History

variable {K V : Type} [DecidableEq K] [Inhabited K] [Inhabited V]

theorem model_append (a b : List (Op K V)) :
    model (a ++ b) = b.foldl modelStep (model a) := by
  unfold model
  rw [List.foldl_append]

theorem modelStep_isSome (g : K → Option V) (op : Op K V) (k : K) :
    (modelStep g op k).isSome =
      if op.inserts k then true else if op.removes k then false else (g k).isSome := by
  cases op with
  | insert e =>
    show (if k = e.1 then some ((g k).getD e.2) else g k).isSome = _
    by_cases hk : k = e.1
    · have : e.1 = k := hk.symm
      simp [Op.inserts, hk]
    · have : ¬ e.1 = k := fun h => hk h.symm
      simp [Op.inserts, Op.removes, hk, this]
  | erase k0 =>
    show (if k = k0 then none else g k).isSome = _
    by_cases hk : k = k0
    · have : k0 = k := hk.symm
      simp [Op.inserts, Op.removes, hk]
    · have : ¬ k0 = k := fun h => hk h.symm
      simp [Op.inserts, Op.removes, hk, this]
  | index k0 =>
    show (if k = k0 then some ((g k).getD default) else g k).isSome = _
    by_cases hk : k = k0
    · have : k0 = k := hk.symm
      simp [Op.inserts, hk]
    · have : ¬ k0 = k := fun h => hk h.symm
      simp [Op.inserts, Op.removes, hk, this]
  | clear =>
    show (none : Option V).isSome = _
    simp [Op.inserts, Op.removes]

/-- A key is present in the abstract map exactly when its most recent insert
was not followed by an erase of it or by a clear. -/
theorem model_isSome (ops : List (Op K V)) (k : K) :
    (model ops k).isSome = insertStands k ops.reverse := by
  induction ops using List.reverseRecOn with
  | nil => rfl
  | append_singleton ops op ih =>
    rw [List.reverse_append, List.reverse_singleton, List.singleton_append]
    show (model (ops ++ [op]) k).isSome =
      if op.inserts k then true else if op.removes k then false
        else insertStands k ops.reverse
    rw [← ih, model_append]
    exact modelStep_isSome (model ops) op k

theorem model_none_iff (ops : List (Op K V)) (k : K) :
    model ops k = none ↔ insertStands k ops.reverse = false := by
  rw [← model_isSome]
  cases model ops k <;> simp

end History

/-! ## The contract of the public operations on reachable tables -/

section Contract

variable {K V : Type} [DecidableEq K] [Inhabited K] [Inhabited V]

theorem sample_reachable : Reachable id sample :=
  (reachable_iff_run sample).2 ⟨sampleOps, by decide⟩

theorem erase_of_wf {hash : K → Nat} {m : HashMap K V} (h : WF hash m) (k : K) :
    ∃ m', m.erase hash k = some m' ∧ WF hash m' ∧
      m'.find hash k = some m'.end_ ∧
      m'.at_ hash k = some (Except.error Error.KeyNotFound) ∧
      ((∃ i, m.find hash k = some i ∧ i ≠ m.end_) → 0 < m.size ∧ m'.size = m.size - 1) ∧
      (m.find hash k = some m.end_ → m' = m ∧ m'.size = m.size) ∧
      ∀ k', k' ≠ k → m'.at_ hash k' = m.at_ hash k' := by
  obtain ⟨m', he, hcase⟩ := erase_spec h k
  refine ⟨m', he, ?_⟩
  rcases hcase with ⟨r, hlr, hkr, hm'⟩ | ⟨hn, hm'⟩
  · have hwf' : WF hash m' := by rw [hm']; exact tomb_wf h hlr
    have hhas : ∀ k' v', m'.has k' v' ↔ (k' ≠ k ∧ m.has k' v') := by
      intro k' v'
      rw [hm', tomb_has h hlr, hkr]
    have hn' : ∀ v', ¬ m'.has k v' := fun v' hv' => ((hhas k v').1 hv').1 rfl
    have hsz : m'.size_ + 1 = m.size_ := by rw [hm']; exact tomb_size h hlr
    refine ⟨hwf', find_of_not_has hwf' hn', at_of_not_has hwf' hn', ?_, ?_, ?_⟩
    · intro _
      show 0 < m.size_ ∧ m'.size_ = m.size_ - 1
      omega
    · intro hf
      have := (find_end_iff_not_has h k).1 hf (m.entry r).2
      exact absurd ⟨r, hlr, by rw [← hkr]; rfl⟩ this
    · intro k' hk'
      apply at_congr h hwf'
      intro v'
      rw [hhas]
      exact ⟨fun hh => hh.2, fun hh => ⟨hk', hh⟩⟩
  · rw [hm']
    have hn' : ∀ v', ¬ m.has k v' := by
      rintro v' ⟨i, hi, hei⟩
      exact hn i hi (has_key hei)
    refine ⟨h, find_of_not_has h hn', at_of_not_has h hn', ?_, fun _ => ⟨rfl, rfl⟩,
      fun _ _ => rfl⟩
    rintro ⟨i, hf, hi⟩
    rw [find_of_not_has h hn'] at hf
    exact absurd (Option.some.inj hf).symm hi

/-- C3. On a reachable table `erase(k)` returns a table in which `find(k)` is
`end()` and `at(k)` fails with KeyNotFound; `size()` has dropped by one when
`k` was live; when `k` was not live the table is left unchanged as a whole;
and `at(k')` answers as before for every other key. -/
theorem erase_contract (hash : K → Nat) (m : HashMap K V) (k : K) (hr : Reachable hash m) :
    ∃ m', m.erase hash k = some m' ∧
      m'.find hash k = some m'.end_ ∧
      m'.at_ hash k = some (Except.error Error.KeyNotFound) ∧
      ((∃ i, m.find hash k = some i ∧ i ≠ m.end_) → 0 < m.size ∧ m'.size = m.size - 1) ∧
      (m.find hash k = some m.end_ → m' = m ∧ m'.size = m.size) ∧
      ∀ k', k' ≠ k → m'.at_ hash k' = m.at_ hash k' := by
  obtain ⟨m', h1, _, h2⟩ := erase_of_wf hr.wf k
  exact ⟨m', h1, h2⟩

/-- Witness for C3: erasing the live key 13 of `sample`. -/
theorem erase_contract_witness :
    ∃ m', sample.erase id 13 = some m' ∧
      m'.find id 13 = some m'.end_ ∧
      m'.at_ id 13 = some (Except.error Error.KeyNotFound) ∧
      ((∃ i, sample.find id 13 = some i ∧ i ≠ sample.end_) →
        0 < sample.size ∧ m'.size = sample.size - 1) ∧
      (sample.find id 13 = some sample.end_ → m' = sample ∧ m'.size = sample.size) ∧
      ∀ k', k' ≠ 13 → m'.at_ id k' = sample.at_ id k' :=
  erase_contract id sample 13 sample_reachable

/-- C5. Uniqueness: in a reachable table no two distinct live slots hold
equal keys, and `size()` is the number of distinct keys `k` with
`find(k) != end()`: the keys of the live slots form a duplicate-free list of
length `size()` whose members are exactly those keys.  For any sequence of
operations that produces the table, these are the keys whose most recent
insert (a call of `insert`, directly or through `map[k]`) was not followed by
`erase(k)` or `clear()`. -/
theorem uniqueness (hash : K → Nat) (m : HashMap K V) (hr : Reachable hash m) :
    (∀ i j, m.isLive i = true → m.isLive j = true → m.key i = m.key j → i = j) ∧
    (m.liveIdx.map m.key).Nodup ∧
    (m.liveIdx.map m.key).length = m.size ∧
    (∀ k, k ∈ m.liveIdx.map m.key ↔ ∃ i, m.find hash k = some i ∧ i ≠ m.end_) ∧
    (∀ ops, HashMap.run hash ops = some m →
      ∀ k, (∃ i, m.find hash k = some i ∧ i ≠ m.end_) ↔ insertStands k ops.reverse = true) := by
  have h := hr.wf
  refine ⟨fun i j hi hj hk => h.live_unique hi hj hk, liveKeys_nodup h, ?_, ?_, ?_⟩
  · rw [List.length_map, liveIdx_length h]
    rfl
  · intro k
    rw [liveKeys_mem h, find_ne_end_iff_has h]
  · intro ops hops k
    obtain ⟨m0, hrun, _, hmod⟩ := run_spec hash ops
    rw [hops] at hrun
    cases hrun
    rw [find_ne_end_iff_has h, ← model_isSome, Option.isSome_iff_exists]
    exact exists_congr (fun v => hmod k v)

/-- Witness for C5 on `sample`. -/
theorem uniqueness_witness :
    (∀ i j, sample.isLive i = true → sample.isLive j = true →
      sample.key i = sample.key j → i = j) ∧
    (sample.liveIdx.map sample.key).Nodup ∧
    (sample.liveIdx.map sample.key).length = sample.size ∧
    (∀ k, k ∈ sample.liveIdx.map sample.key ↔
      ∃ i, sample.find id k = some i ∧ i ≠ sample.end_) ∧
    (∀ ops, HashMap.run id ops = some sample →
      ∀ k, (∃ i, sample.find id k = some i ∧ i ≠ sample.end_) ↔
        insertStands k ops.reverse = true) :=
  uniqueness id sample sample_reachable

end Contract

/-! ## Growth, iteration, range construction and lookups -/

section Contract2

variable {K V : Type} [DecidableEq K] [Inhabited K] [Inhabited V]

/-- C7. Iteration completeness: on a reachable table the positions visited
from `begin()` by `++` until `end()` are exactly the indices of the occupied
and not tombstoned slots, in strictly increasing order; each of them
dereferences to its stored pair; the keys visited are pairwise distinct, are
exactly the keys with `find(k) != end()`, and their number is `size()`. -/
theorem iteration_completeness (hash : K → Nat) (m : HashMap K V) (hr : Reachable hash m) :
    m.traverse = some m.liveIdx ∧
    m.liveIdx.Sorted (· < ·) ∧
    (∀ i, i ∈ m.liveIdx ↔
      (i < m.len_ ∧ m.occupied_[i]? = some true ∧ m.erased_[i]? = some false)) ∧
    (∀ i ∈ m.liveIdx, m.deref i = some (Except.ok (m.entry i))) ∧
    (m.liveIdx.map m.key).Nodup ∧
    (∀ k, k ∈ m.liveIdx.map m.key ↔ ∃ i, m.find hash k = some i ∧ i ≠ m.end_) ∧
    m.liveIdx.length = m.size := by
  have h := hr.wf
  refine ⟨traverse_spec h, liveIdx_sorted m, ?_, ?_, liveKeys_nodup h, ?_, liveIdx_length h⟩
  · intro i
    rw [liveIdx_mem h]
    constructor
    · intro hi
      have hil := h.live_lt hi
      simp only [HashMap.isLive, Bool.and_eq_true, Bool.not_eq_true'] at hi
      exact ⟨hil, by rw [h.read_occupied hil, hi.1], by rw [h.read_erased hil, hi.2]⟩
    · rintro ⟨hil, ho, he⟩
      rw [h.read_occupied hil] at ho
      rw [h.read_erased hil] at he
      simp [HashMap.isLive, Option.some.inj ho, Option.some.inj he]
  · intro i hi
    exact deref_lt h (h.live_lt ((liveIdx_mem h i).1 hi))
  · intro k
    rw [liveKeys_mem h, find_ne_end_iff_has h]

/-- Witness for C7 on `sample`: the traversal visits the slots 1, 2 and 5
and skips the tombstoned slot 6. -/
theorem iteration_completeness_witness :
    sample.traverse = some [1, 2, 5] ∧ sample.liveIdx = [1, 2, 5] :=
  ⟨(iteration_completeness id sample sample_reachable).1.trans (by decide), by decide⟩

end Contract2

/-! ## Range construction, bracket access and checked lookup -/

section Contract3

variable {K V : Type} [DecidableEq K] [Inhabited K] [Inhabited V]

/-- C10. Checked lookup: on a reachable table `find(k)` and `at(k)` return;
`at(k)` fails with KeyNotFound exactly when `find(k) == end()`; when
`find(k) != end()`, `at(k)` is the value stored in the slot `find(k)` points
to, whose key is `k`.  On the empty table, and after any sequence of
operations in which `k` was never inserted or was erased (or cleared) since
its last insert, `at(k)` fails and `find(k) == end()`. -/
theorem checked_lookup (hash : K → Nat) (m : HashMap K V) (k : K) (hr : Reachable hash m) :
    (∃ i, m.find hash k = some i) ∧ (∃ r, m.at_ hash k = some r) ∧
    (m.at_ hash k = some (Except.error Error.KeyNotFound) ↔ m.find hash k = some m.end_) ∧
    (∀ i, m.find hash k = some i → i ≠ m.end_ →
      ∃ d, m.data_[i]? = some d ∧ d.1 = k ∧ m.at_ hash k = some (Except.ok d.2)) ∧
    ((HashMap.empty : HashMap K V).at_ hash k = some (Except.error Error.KeyNotFound) ∧
      (HashMap.empty : HashMap K V).find hash k = some (HashMap.empty : HashMap K V).end_) ∧
    (∀ ops, HashMap.run hash ops = some m → insertStands k ops.reverse = false →
      m.at_ hash k = some (Except.error Error.KeyNotFound) ∧
        m.find hash k = some m.end_) := by
  have h := hr.wf
  refine ⟨?_, ?_, ?_, ?_, ⟨rfl, rfl⟩, ?_⟩
  · obtain ⟨r, hf, _⟩ := find_spec h k
    exact ⟨r, hf⟩
  · rcases has_or_not m k with ⟨v, hv⟩ | hn
    · exact ⟨_, at_of_has h hv⟩
    · exact ⟨_, at_of_not_has h hn⟩
  · constructor
    · intro hat
      apply find_of_not_has h
      intro v hv
      rw [at_of_has h hv] at hat
      injection hat with hat
      cases hat
    · intro hf
      exact at_of_not_has h ((find_end_iff_not_has h k).1 hf)
  · intro i hf hi
    obtain ⟨v, hv⟩ := (find_ne_end_iff_has h k).1 ⟨i, hf, hi⟩
    obtain ⟨j, hfj, hjl, _, hej⟩ := find_of_has h hv
    rw [hf] at hfj
    have hij : i = j := Option.some.inj hfj
    subst hij
    refine ⟨m.entry i, h.read_data hjl, by rw [hej], ?_⟩
    rw [hej]
    exact at_of_has h hv
  · intro ops hops hst
    have hmk := (model_none_iff ops k).2 hst
    obtain ⟨m0, hrun, _, hmod⟩ := run_spec hash ops
    rw [hops] at hrun
    cases hrun
    have hn : ∀ v, ¬ m.has k v := by
      intro v hv
      rw [hmod, hmk] at hv
      cases hv
    exact ⟨at_of_not_has h hn, find_of_not_has h hn⟩

/-- Witness for C10 on `sample`: the tombstoned key 7 is not found, the live
key 13 is found in slot 5. -/
theorem checked_lookup_witness :
    (sample.at_ id 7 = some (Except.error Error.KeyNotFound) ↔
      sample.find id 7 = some sample.end_) ∧
    (∃ d, sample.data_[5]? = some d ∧ d.1 = 13 ∧ sample.at_ id 13 = some (Except.ok d.2)) :=
  ⟨(checked_lookup id sample 7 sample_reachable).2.2.1,
    (checked_lookup id sample 13 sample_reachable).2.2.2.1 5 (by decide) (by decide)⟩

end Contract3

/-! ## The capacity of reachable tables -/

section Capacity

variable {K V : Type} [DecidableEq K] [Inhabited K] [Inhabited V]
variable {hash : K → Nat} {m : HashMap K V}

end Capacity

/-! ## The tables on which the body of `insert` runs -/

section CallStateLemmas

variable {K V : Type} [DecidableEq K] [Inhabited K] [Inhabited V]
variable {hash : K → Nat} {m : HashMap K V}

end CallStateLemmas

/-! ## The load check on reachable capacities and tables filled with distinct keys -/

section Filling

variable {K V : Type} [DecidableEq K] [Inhabited K] [Inhabited V]

end Filling

/-! ## Chain walks -/

section Walks

variable {K V : Type} [DecidableEq K] [Inhabited K] [Inhabited V]
variable {hash : K → Nat} {m : HashMap K V}

end Walks

/-! ## Counters -/

section CounterLemmas

variable {K V : Type} [DecidableEq K] [Inhabited K] [Inhabited V]
variable {hash : K → Nat} {m : HashMap K V}

end CounterLemmas

/-! ## Clear, cursor dereference, the erase frame and the address region -/

section Contract4

variable {K V : Type} [DecidableEq K] [Inhabited K] [Inhabited V]

/-- C11. Clear resets fully: for every table the state after `clear()` is
the state of a freshly constructed table (capacity 0, all counters 0, empty
arrays); hence `size() == 0`, `begin() == end()`, and every sequence of
operations applied afterwards gives the same tables, and the same answers of
`find` and `at`, as on a freshly constructed table. -/
theorem clear_resets (hash : K → Nat) (m : HashMap K V) :
    m.clear = (HashMap.empty : HashMap K V) ∧
    (m.clear.len_ = 0 ∧ m.clear.address_len_ = 0 ∧ m.clear.size_ = 0 ∧
      m.clear.occupied_count_ = 0 ∧ m.clear.last_empty_ = 0 ∧ m.clear.data_ = [] ∧
      m.clear.next_ = [] ∧ m.clear.occupied_ = [] ∧ m.clear.erased_ = []) ∧
    m.clear.size = 0 ∧ m.clear.begin = some m.clear.end_ ∧
    (∀ ops : List (Op K V),
      ops.foldlM (fun (t : HashMap K V) op => t.step hash op) m.clear = HashMap.run hash ops) ∧
    (∀ (ops : List (Op K V)) (k : K),
      ((ops.foldlM (fun (t : HashMap K V) op => t.step hash op) m.clear).bind fun (t : HashMap K V) => t.find hash k) =
        ((HashMap.run hash ops).bind fun (t : HashMap K V) => t.find hash k) ∧
      ((ops.foldlM (fun (t : HashMap K V) op => t.step hash op) m.clear).bind fun (t : HashMap K V) => t.at_ hash k) =
        ((HashMap.run hash ops).bind fun (t : HashMap K V) => t.at_ hash k)) :=
  ⟨rfl, ⟨rfl, rfl, rfl, rfl, rfl, rfl, rfl, rfl, rfl⟩, rfl, rfl, fun _ => rfl,
    fun _ _ => ⟨rfl, rfl⟩⟩

theorem begin_spec {hash : K → Nat} {m : HashMap K V} (h : WF hash m) :
    ∃ b, m.begin = some b ∧ b ≤ m.len_ ∧ (b < m.len_ → m.isLive b = true) ∧
      (b = m.len_ ↔ m.size_ = 0) := by
  obtain ⟨j, h1, _, h3, h4, h5⟩ := skipLoop_spec h (m.len_ + 1) 0 (by omega) (by omega)
  refine ⟨j, h1, h3, h4, ?_⟩
  have hlive : m.liveIdx = if j < m.len_ then
      j :: (List.range' (j + 1) (m.len_ - (j + 1))).filter m.isLive else [] := by
    rw [← h5]
    unfold HashMap.liveIdx
    rw [List.range_eq_range']
    rfl
  have hlen := liveIdx_length h
  rw [hlive] at hlen
  constructor
  · intro hj
    rw [if_neg (by omega)] at hlen
    exact hlen.symm
  · intro hs
    by_contra hne
    rw [if_pos (by omega)] at hlen
    simp only [List.length_cons] at hlen
    omega

theorem deref_out_iff (m : HashMap K V) (p : Nat) :
    m.deref p = some (Except.error Error.OutOfRange) ↔ p ≥ m.len_ := by
  unfold HashMap.deref
  constructor
  · intro hd
    by_contra hp
    rw [if_neg hp] at hd
    cases hdp : m.data_[p]? with
    | none => rw [hdp] at hd; cases hd
    | some d =>
      rw [hdp] at hd
      simp at hd
  · intro hp
    rw [if_pos hp]

/-- C12. Cursor dereference: for every table and position `p`, `operator*`
fails with OutOfRange exactly when `p >= len_`; on a reachable table every
position below `len_` dereferences to the stored pair, `end()` fails,
`begin()` returns and fails exactly when `size() == 0`, and for every key
with `find(k) != end()` the cursor `find(k)` dereferences to `(k, at(k))`. -/
theorem cursor_dereference (hash : K → Nat) (m : HashMap K V) :
    (∀ p, m.deref p = some (Except.error Error.OutOfRange) ↔ p ≥ m.len_) ∧
    (Reachable hash m →
      (∀ p, p < m.len_ → ∃ d, m.data_[p]? = some d ∧ m.deref p = some (Except.ok d)) ∧
      m.deref m.end_ = some (Except.error Error.OutOfRange) ∧
      (∃ b, m.begin = some b ∧
        (m.deref b = some (Except.error Error.OutOfRange) ↔ m.size = 0)) ∧
      (∀ k i, m.find hash k = some i → i ≠ m.end_ →
        ∃ v, m.at_ hash k = some (Except.ok v) ∧ m.deref i = some (Except.ok (k, v)))) := by
  refine ⟨deref_out_iff m, fun hr => ?_⟩
  have h := hr.wf
  refine ⟨fun p hp => ⟨m.entry p, h.read_data hp, deref_lt h hp⟩, ?_, ?_, ?_⟩
  · exact (deref_out_iff m m.end_).2 (le_refl _)
  · obtain ⟨b, hb, hle, _, hiff⟩ := begin_spec h
    refine ⟨b, hb, ?_⟩
    rw [deref_out_iff]
    show b ≥ m.len_ ↔ m.size_ = 0
    rw [← hiff]
    omega
  · intro k i hf hi
    obtain ⟨v, hv⟩ := (find_ne_end_iff_has h k).1 ⟨i, hf, hi⟩
    obtain ⟨j, hfj, hjl, _, hej⟩ := find_of_has h hv
    rw [hf] at hfj
    have hij : i = j := Option.some.inj hfj
    subst hij
    exact ⟨v, at_of_has h hv, by rw [deref_lt h hjl, hej]⟩

/-- Witness for C12 on `sample` (capacity 7): position 7 is out of range,
`begin()` is slot 1, and `find(13)` is slot 5, which holds `(13, 30)`. -/
theorem cursor_dereference_witness :
    sample.deref 7 = some (Except.error Error.OutOfRange) ∧
    (∃ b, sample.begin = some b ∧
      (sample.deref b = some (Except.error Error.OutOfRange) ↔ sample.size = 0)) ∧
    (∃ v, sample.at_ id 13 = some (Except.ok v) ∧
      sample.deref 5 = some (Except.ok (13, v))) :=
  ⟨((cursor_dereference id sample).1 7).2 (by decide),
    ((cursor_dereference id sample).2 sample_reachable).2.2.1,
    ((cursor_dereference id sample).2 sample_reachable).2.2.2 13 5 (by decide) (by decide)⟩

/-- C18. Erase frame: on a reachable table `erase(k)` returns a table that
is either the same table or differs from it only in the tombstone flag of
one live slot `r` holding `k` (set to true) and in `size_` (one less); so
`len_`, `address_len_`, `occupied_count_`, `last_empty_` and the arrays
`occupied_`, `next_` and `data_` are unchanged, every cursor dereferences as
before, and every slot not holding `k` is live exactly when it was. -/
theorem erase_frame (hash : K → Nat) (m : HashMap K V) (k : K) (hr : Reachable hash m) :
    ∃ m', m.erase hash k = some m' ∧
      (m' = m ∨ ∃ r, r < m.len_ ∧ m.occupied_[r]? = some true ∧
        m.erased_[r]? = some false ∧ (∃ d, m.data_[r]? = some d ∧ d.1 = k) ∧
        m' = { m with erased_ := m.erased_.set r true, size_ := m.size_ - 1 } ∧
        m'.size_ + 1 = m.size_) ∧
      m'.len_ = m.len_ ∧ m'.address_len_ = m.address_len_ ∧
      m'.occupied_count_ = m.occupied_count_ ∧ m'.last_empty_ = m.last_empty_ ∧
      m'.occupied_ = m.occupied_ ∧ m'.next_ = m.next_ ∧ m'.data_ = m.data_ ∧
      (∀ i, m'.deref i = m.deref i) ∧
      (∀ i, m.key i ≠ k → m'.isLive i = m.isLive i) := by
  have h := hr.wf
  obtain ⟨m', he, hcase⟩ := erase_spec h k
  refine ⟨m', he, ?_⟩
  rcases hcase with ⟨r, hlr, hkr, hm'⟩ | ⟨_, hm'⟩
  · have hrl := h.live_lt hlr
    have hlr' := hlr
    simp only [HashMap.isLive, Bool.and_eq_true, Bool.not_eq_true'] at hlr'
    subst hm'
    refine ⟨Or.inr ⟨r, hrl, by rw [h.read_occupied hrl, hlr'.1],
      by rw [h.read_erased hrl, hlr'.2], ⟨m.entry r, h.read_data hrl, hkr⟩, rfl,
      tomb_size h hlr⟩, rfl, rfl, rfl, rfl, rfl, rfl, rfl, fun _ => rfl, ?_⟩
    intro i hi
    rw [tomb_isLive h hrl, if_neg]
    intro hir
    rw [hir] at hi
    exact hi hkr
  · subst hm'
    exact ⟨Or.inl rfl, rfl, rfl, rfl, rfl, rfl, rfl, rfl, fun _ => rfl, fun _ _ => rfl⟩

/-- Witness for C18: erasing the live key 13 of `sample` sets the tombstone
flag of slot 5 and nothing else but `size_`. -/
theorem erase_frame_witness :
    ∃ m', sample.erase id 13 = some m' ∧
      (m' = sample ∨ ∃ r, r < sample.len_ ∧ sample.occupied_[r]? = some true ∧
        sample.erased_[r]? = some false ∧ (∃ d, sample.data_[r]? = some d ∧ d.1 = 13) ∧
        m' = { sample with erased_ := sample.erased_.set r true, size_ := sample.size_ - 1 } ∧
        m'.size_ + 1 = sample.size_) ∧
      m'.len_ = sample.len_ ∧ m'.address_len_ = sample.address_len_ ∧
      m'.occupied_count_ = sample.occupied_count_ ∧ m'.last_empty_ = sample.last_empty_ ∧
      m'.occupied_ = sample.occupied_ ∧ m'.next_ = sample.next_ ∧ m'.data_ = sample.data_ ∧
      (∀ i, m'.deref i = sample.deref i) ∧
      (∀ i, sample.key i ≠ 13 → m'.isLive i = sample.isLive i) :=
  erase_frame id sample 13 sample_reachable

end Contract4

/-! ## Chains, counters and growth -/

section Contract5

variable {K V : Type} [DecidableEq K] [Inhabited K] [Inhabited V]

theorem finalState_unique {hash : K → Nat} {m t t' : HashMap K V}
    (h1 : FinalState hash m t) (h2 : FinalState hash m t') : t = t' := by
  rcases h1 with ⟨hlo, ht⟩ | ⟨hhi, hr⟩ <;> rcases h2 with ⟨hlo', ht'⟩ | ⟨hhi', hr'⟩
  · rw [ht, ht']
  · rw [hlo] at hhi'
    cases hhi'
  · rw [hhi] at hlo'
    cases hlo'
  · rw [hr] at hr'
    exact Option.some.inj hr'

end Contract5

/-! ## The free-slot scan, the splice and termination of the chain walks -/

section Contract6

variable {K V : Type} [DecidableEq K] [Inhabited K] [Inhabited V]

end Contract6

end Coalesced
